import Mathlib

/-!
Verification of the log-inspection engine of `dockerModule.js` against its
natural-language specification.

The JavaScript source is shallowly embedded: file contents are `List Char`
(the engine reads UTF-8 byte buffers; the embedding identifies byte offsets
with character indices, which is faithful for ASCII content, and the theorems
about file contents therefore carry an ASCII hypothesis where it matters).
`moment.tz(dateString, "MM/DD/YYYY, hh:mm:ss A", tz)` is modelled in a fixed
UTC zone (the specification, section 4.1, allows overriding the guessed IANA
zone by a fixed one); non-strict moment parsing, including the meridiem
fix-up for hours and the overflow checks, is reproduced.
Asynchronous file reads become pure slices of the content; the single
filesystem write performed by `getLogFileTimeRange` is recorded in an
explicit operation trace.
-/

set_option linter.unusedVariables false
set_option maxRecDepth 65536

namespace DCM

/-! ## Basic character and list utilities -/

/-- Index of the first occurrence of `ch` in `l`, as `String.prototype.indexOf`
with a start index of 0 (value `-1` becomes `none`). -/
def findCharIdx : List Char → Char → Option Nat
  | [], _ => none
  | a :: rest, ch => if a = ch then some 0 else (findCharIdx rest ch).map (· + 1)

/-- `l.indexOf(ch, start)`: absolute index of the first occurrence of `ch`
at position `start` or later. -/
def idxFrom (l : List Char) (ch : Char) (start : Nat) : Option Nat :=
  (findCharIdx (l.drop start) ch).map (· + start)

/-- `content.split('\n')` over character lists: `splitNl [] = [[]]`,
matching the JavaScript behaviour on the empty string. -/
def splitNl : List Char → List (List Char)
  | [] => [[]]
  | ch :: rest =>
    let r := splitNl rest
    if ch = '\n' then [] :: r
    else
      match r with
      | [] => [[ch]]
      | h :: tl => (ch :: h) :: tl

/-- Concatenation with `'\n'` separators, the left inverse of `splitNl`. -/
def joinNlSep : List (List Char) → List Char
  | [] => []
  | [l] => l
  | l :: ls => l ++ '\n' :: joinNlSep ls

/-- `line.includes(pat)`: substring containment (byte-wise, case sensitive);
the empty pattern is contained in everything, as in JavaScript. -/
def containsSub : List Char → List Char → Bool
  | l, pat => pat.isPrefixOf l || match l with
    | [] => false
    | _ :: rest => containsSub rest pat

/-- ASCII whitespace as recognised by `String.prototype.trim`. -/
def isWsCh (ch : Char) : Bool :=
  ch = ' ' || ch = '\t' || ch = '\n' || ch = '\r' || ch = '\x0b' || ch = '\x0c'

/-- `action.toUpperCase()` on ASCII strings (api/server.js line 45). -/
def toUpperAscii (l : List Char) : List Char :=
  l.map fun ch => if 'a' ≤ ch ∧ ch ≤ 'z' then Char.ofNat (ch.toNat - 32) else ch

/-! ## Timestamp codec

The regex `^(\d{1,2}\/\d{1,2}\/\d{4}, \d{1,2}:\d{2}:\d{2} (?:AM|PM))` from
`#extractTimeAtOffset` (dockerModule.js lines 133-145), followed by the
moment parse `moment.tz(dateString, "MM/DD/YYYY, hh:mm:ss A", tz).valueOf()`
with the `isNaN` guard, modelled in a fixed UTC zone. -/

/-- Decimal digit test and value. -/
def digitVal (ch : Char) : Option Nat :=
  if '0' ≤ ch ∧ ch ≤ '9' then some (ch.toNat - 48) else none

/-- One or two digits followed by the separator `sep` (which is never a
digit in the formats used), as matched by the greedy `\d{1,2}` followed by
a literal; returns the numeric value and the remaining characters. -/
def numSep (sep : Char) : List Char → Option (Nat × List Char)
  | a :: rest =>
    match digitVal a, rest with
    | some da, b :: rest2 =>
      (match digitVal b, rest2 with
       | some db, cc :: rest3 => if cc = sep then some (10 * da + db, rest3) else none
       | some _, [] => none
       | none, _ => if b = sep then some (da, rest2) else none)
    | some _, [] => none
    | none, _ => none
  | [] => none

/-- Exactly two digits (`\d{2}`). -/
def num2 : List Char → Option (Nat × List Char)
  | a :: b :: rest =>
    match digitVal a, digitVal b with
    | some da, some db => some (10 * da + db, rest)
    | _, _ => none
  | _ => none

/-- Exactly four digits (`\d{4}`). -/
def num4 : List Char → Option (Nat × List Char)
  | a :: b :: cc :: d :: rest =>
    match digitVal a, digitVal b, digitVal cc, digitVal d with
    | some da, some db, some dc, some dd =>
      some (1000 * da + 100 * db + 10 * dc + dd, rest)
    | _, _, _, _ => none
  | _ => none

/-- A single expected literal character. -/
def lit (ch : Char) : List Char → Option (List Char)
  | a :: rest => if a = ch then some rest else none
  | [] => none

/-- `AM`/`PM`; `true` means PM. -/
def meridiem : List Char → Option Bool
  | 'A' :: 'M' :: _ => some false
  | 'P' :: 'M' :: _ => some true
  | _ => none

/-- The anchored timestamp regex: month, day, year, `", "`, hour, minute,
second, `" "`, meridiem.  Returns the six numeric fields and the PM flag. -/
def parseTsToken (l : List Char) : Option (Nat × Nat × Nat × Nat × Nat × Nat × Bool) := do
  let (month, r1) ← numSep '/' l
  let (day, r2) ← numSep '/' r1
  let (year, r3) ← num4 r2
  let r4 ← lit ',' r3
  let r5 ← lit ' ' r4
  let (hour, r6) ← numSep ':' r5
  let (minute, r7) ← num2 r6
  let r8 ← lit ':' r7
  let (second, r9) ← num2 r8
  let r10 ← lit ' ' r9
  let pm ← meridiem r10
  pure (month, day, year, hour, minute, second, pm)

/-- Gregorian leap year. -/
def isLeapYear (y : Nat) : Bool :=
  (y % 4 = 0 ∧ y % 100 ≠ 0) ∨ y % 400 = 0

/-- Days in month `m` (1-12) of year `y`. -/
def daysInMonth (y m : Nat) : Nat :=
  if m = 2 then (if isLeapYear y then 29 else 28)
  else if m = 4 ∨ m = 6 ∨ m = 9 ∨ m = 11 then 30 else 31

/-- Days in the months of year `y` strictly before month `m`. -/
def daysBeforeMonth (y : Nat) : Nat → Nat
  | 0 => 0
  | m + 1 => if m = 0 then 0 else daysBeforeMonth y m + daysInMonth y m

/-- Days in the years 1..y-1 (day number 0 is January 1 of year 1). -/
def daysBeforeYear (y : Nat) : Nat :=
  365 * (y - 1) + (y - 1) / 4 - (y - 1) / 100 + (y - 1) / 400

/-- Day number of the Unix epoch 1970-01-01 in the year-1 reckoning. -/
def epochDayNumber : Nat := daysBeforeYear 1970

/-- moment's meridiem fix-up (`meridiemFixWrap`): PM adds 12 to hours below
12, `12 AM` becomes hour 0, other values pass through unchanged. -/
def meridiemFix (hour : Nat) (pm : Bool) : Nat :=
  if pm then (if hour < 12 then hour + 12 else hour)
  else (if hour = 12 then 0 else hour)

/-- The moment parse of a matched date string in a fixed UTC zone:
overflow checks of non-strict parsing (month 1-12, day within the month,
24-hour value at most 24 with 24 requiring zero minutes and seconds,
minutes and seconds at most 59), then milliseconds since the epoch.
An overflow makes `valueOf()` return `NaN`, modelled as `none`. -/
def momentValue (month day year hour minute second : Nat) (pm : Bool) : Option Int :=
  let h24 := meridiemFix hour pm
  if 1 ≤ month ∧ month ≤ 12 ∧ 1 ≤ day ∧ day ≤ daysInMonth year month ∧
     minute ≤ 59 ∧ second ≤ 59 ∧
     (h24 < 24 ∨ (h24 = 24 ∧ minute = 0 ∧ second = 0)) then
    some ((((daysBeforeYear year + daysBeforeMonth year month + (day - 1) : Int)
            - (epochDayNumber : Int)) * 86400000)
          + (h24 : Int) * 3600000 + (minute : Int) * 60000 + (second : Int) * 1000)
  else none

/-- Timestamp of a line: the regex match followed by the moment parse;
`none` both when the regex fails and when the parsed date is invalid. -/
def parseTs (l : List Char) : Option Int :=
  match parseTsToken l with
  | some (month, day, year, hour, minute, second, pm) =>
    momentValue month day year hour minute second pm
  | none => none

/-! ## Log engine, byte-offset layer (dockerModule.js lines 43-192)

File contents are `List Char`; `fileHandle.read(buffer, 0, n, pos)` becomes
`(s.drop pos).take n` (with `bytesRead = 0` exactly when `pos` is at or past
the end), and `stats.size` is `s.length`. -/

/-- `#extractTimeAtOffset` (lines 126-145): read up to 100 bytes at `offset`
and parse the anchored timestamp; `none` on a zero-byte read or a failed or
invalid parse.  The zero-fill padding of `Buffer.alloc` cannot complete or
break an anchored match, so only the read bytes are parsed. -/
def extractTimeAtOffset (s : List Char) (offset : Nat) : Option Int :=
  if offset < s.length then parseTs ((s.drop offset).take 100) else none

/-- Inner fragment walk of `#scanForwardForTime` (lines 160-184): test each
`split('\n')` fragment of a chunk for a leading valid timestamp, tracking the
byte offset of the fragment inside the chunk. -/
def scanFragments : List (List Char) → Nat → Option (Int × Nat)
  | [], _ => none
  | line :: rest, localOffset =>
    match parseTs line with
    | some ts => some (ts, localOffset)
    | none => scanFragments rest (localOffset + line.length + 1)

/-- Chunk loop of `#scanForwardForTime` (lines 156-190), step-indexed by an
iteration budget: each pass advances `startOffset` by 512, so a budget of
`fileSize - startOffset + 1` can never run out before the bound is hit. -/
def scanForwardGo (s : List Char) : Nat → Nat → Nat → Option Int × Nat
  | 0, _, fileSize => (none, fileSize)
  | fuel + 1, startOffset, fileSize =>
    if startOffset < fileSize then
      let chunk := (s.drop startOffset).take 512
      if chunk.length = 0 then (none, fileSize)
      else
        match scanFragments (splitNl chunk) 0 with
        | some (ts, localOffset) => (some ts, startOffset + localOffset)
        | none => scanForwardGo s fuel (startOffset + 512) fileSize
    else (none, fileSize)

/-- `#scanForwardForTime` (lines 151-192): scan forward from `startOffset`
in 512-byte chunks, bounded by `fileSize`, for the first fragment with a
valid leading timestamp; returns the timestamp and its offset, or
`(none, fileSize)`.  Chunks are read from the real content even when the
bound is smaller than the file. -/
def scanForwardForTime (s : List Char) (startOffset fileSize : Nat) : Option Int × Nat :=
  scanForwardGo s (fileSize - startOffset + 1) startOffset fileSize

/-- Pivot timestamp extraction of `#findOffsetByTime` (lines 79-96):
the direct extract at the discovered line start, with the linear
scan-forward recovery when no time was parsed and the offset is inside the
file; `none` when both fail. -/
def pivotTime (s : List Char) (lineStartOffset : Nat) : Option (Int × Nat) :=
  match extractTimeAtOffset s lineStartOffset with
  | some ts => some (ts, lineStartOffset)
  | none =>
    if lineStartOffset < s.length then
      match scanForwardForTime s lineStartOffset s.length with
      | (some nextTs, nextOffset) => some (nextTs, nextOffset)
      | (none, _) => none
    else none

/-- One iteration of the `while (low < high)` loop of `#findOffsetByTime`
(lines 51-114): read 512 bytes around `mid := (low + high) / 2`, find the
next newline at or after `mid`, extract the pivot timestamp (falling back
to the forward scan), and either break (a zero-byte read) or continue with
a narrowed `[low, high)` and updated `resultOffset`. -/
inductive LoopStep where
  | brk (r : Nat)
  | cont (low high resultOffset : Nat)
deriving DecidableEq, Repr

def findIter (s : List Char) (targetTimeTs : Int) (low high resultOffset : Nat) :
    LoopStep :=
  let mid := (low + high) / 2
  let searchStart := mid - 256
  let chunk := (s.drop searchStart).take 512
  if chunk.length = 0 then .brk resultOffset
  else
    let relativeMid := mid - searchStart
    match idxFrom chunk '\n' relativeMid with
    | none =>
      -- no newline forward in the window: `lineStartOffset = fileSize`,
      -- no timestamp, treated as end of search space (`high = mid`)
      .cont low mid resultOffset
    | some newlineIndex =>
      let lineStartOffset := searchStart + newlineIndex + 1
      match pivotTime s lineStartOffset with
      | none => .cont low mid resultOffset
      | some (logTimeTs, lineStart1) =>
        if targetTimeTs ≤ logTimeTs then .cont low mid lineStart1
        else
          let low1 := lineStart1
          let low2 := if low1 ≤ mid then mid + 1 else low1
          .cont low2 high resultOffset

/-- The `while` loop of `#findOffsetByTime`, step-indexed by an explicit
iteration budget; `none` means the budget was exhausted (the termination
theorem shows `high - low + 1` always suffices). -/
def findLoopF (s : List Char) (targetTimeTs : Int) :
    Nat → Nat → Nat → Nat → Option Nat
  | 0, _, _, _ => none
  | fuel + 1, low, high, resultOffset =>
    if low < high then
      match findIter s targetTimeTs low high resultOffset with
      | .brk r => some r
      | .cont low2 high2 result2 => findLoopF s targetTimeTs fuel low2 high2 result2
    else some resultOffset

/-- `#findOffsetByTime` (lines 43-117): binary search over byte offsets for
the time `targetTimeTs`, restricted to `[minOffset, fileSize)`; the
`findStart` mode flag is accepted but, as in the source, never read.
The iteration budget `fileSize - minOffset + 1` is sufficient by the
termination theorem, and `fileSize` (the initial `resultOffset`) is the
fallback. -/
def findOffsetByTime (s : List Char) (targetTimeTs : Int) (findStart : Bool)
    (minOffset : Nat) : Nat :=
  (findLoopF s targetTimeTs (s.length - minOffset + 1) minOffset s.length s.length).getD
    s.length

/-! ## searchLogLinesByTimeRange (lines 507-557) -/

structure SearchResult where
  lines : List (List Char)
  total : Nat
deriving DecidableEq, Repr

/-- Offset resolution, slice read and line filtering of
`searchLogLinesByTimeRange` (lines 516-544): everything up to pagination.
`startTs`/`endTs` are the already-parsed instants (`new Date(x).getTime()`,
with `isNaN` inputs rejected before this point); the JavaScript truthiness
tests `startTs ?` and `endTs ?` make the instant `0` behave like an absent
bound.  The `readLength <= 0` early return yields the empty line list. -/
def searchAllLines (s : List Char) (startTs endTs : Option Int)
    (search : List Char) : List (List Char) :=
  let fileSize := s.length
  let startOffset := match startTs with
    | some ts => if ts = 0 then 0 else findOffsetByTime s ts true 0
    | none => 0
  let endOffset := match endTs with
    | some ts => if ts = 0 then fileSize else findOffsetByTime s (ts + 1) false startOffset
    | none => fileSize
  if endOffset ≤ startOffset then []
  else
    let content := (s.drop startOffset).take (endOffset - startOffset)
    let allLines := (splitNl content).filter fun line => line.any fun ch => ¬ isWsCh ch
    if search ≠ [] then allLines.filter (fun line => containsSub line search)
    else allLines

/-- `searchLogLinesByTimeRange` (lines 507-557) on the content of an
existing log file of an existing service: the filtered lines of the slice,
paginated by `allLines.slice(offset, offset + limit)`, with `total` the
pre-pagination count (the early return `{lines: [], total: 0}` coincides
with paginating the empty list). -/
def searchLogLinesByTimeRange (s : List Char) (startTs endTs : Option Int)
    (limit offset : Nat) (search : List Char) : SearchResult :=
  let allLines := searchAllLines s startTs endTs search
  ⟨(allLines.drop offset).take limit, allLines.length⟩

/-! ## getLogLines (lines 462-494) -/

/-- `getLogLines` (lines 462-494) on the content of an existing log file:
split on `'\n'`, clamp a negative `startLine` against the part count,
reject non-positive `numLines`, and return the slice. -/
def getLogLines (s : List Char) (startLine numLines : Int) : List (List Char) :=
  let lines := splitNl s
  let start : Int :=
    if startLine < 0 then
      min (max 0 ((lines.length : Int) + startLine)) (lines.length : Int)
    else startLine
  if numLines ≤ 0 then []
  else
    let endLine : Int := min (start + numLines) (lines.length : Int)
    (lines.drop start.toNat).take (endLine - start).toNat

/-! ## powerAction (lines 13-17, 254-263) and the HTTP layer -/

/-- The frozen `PowerAction` enumeration (lines 13-17): `START`, `STOP`,
`RESTART` — and nothing else. -/
def PowerActionValues : List (List Char) :=
  ["START".toList, "STOP".toList, "RESTART".toList]

structure PowerActionResult where
  success : Bool
  message : List Char
deriving DecidableEq, Repr

/-- The validation guard of `powerAction` (lines 255-258): the fixed error
result when `actionType` is not one of the `PowerAction` values, `none`
when validation passes. -/
def powerActionValidation (actionType : List Char) : Option PowerActionResult :=
  if actionType ∈ PowerActionValues then none
  else some ⟨false, "Invalid action type".toList⟩

/-! ## monitorServiceLogs (lines 418-453) -/

/-- The per-line handler installed by `monitorServiceLogs` (lines 434-438),
applied to the lines appended after subscription in append order (the tail
watcher emits exactly those, in order): a line is forwarded to the
subscriber callback exactly when the filter is empty or contained in it. -/
def monitorDeliveredLines (search : List Char) (appended : List (List Char)) :
    List (List Char) :=
  appended.filter fun line => search.isEmpty || containsSub line search

/-! ## Time-range metadata and cache (lines 567-772) -/

/-- `#findFirstTimestamp` (lines 567-579): forward scan over at most the
first 50 KiB. -/
def findFirstTimestamp (s : List Char) : Option Int :=
  (scanForwardForTime s 0 (min s.length (50 * 1024))).fst

/-- Backward iteration of `#findLastTimestamp` over the fragments of one
chunk (lines 609-622): the last fragment with a valid leading timestamp. -/
def lastTsInChunk (chunk : List Char) : Option Int :=
  ((splitNl chunk).reverse).findSome? parseTs

/-- Chunk loop of `#findLastTimestamp` (lines 596-625), walking backward
from `position` in chunks of at most 10 KiB down to `minPos`, step-indexed
by an iteration budget: each pass lowers `position` by `readSize ≥ 1`, so a
budget of `position + 1` can never run out before `position ≤ minPos`. -/
def findLastTimestampGo (s : List Char) (minPos : Nat) :
    Nat → Nat → Option Int
  | 0, _ => none
  | fuel + 1, position =>
    if position > minPos then
      let readSize := min (10 * 1024) (position - minPos)
      let startOffset := position - readSize
      let chunk := (s.drop startOffset).take readSize
      match lastTsInChunk chunk with
      | some ts => some ts
      | none => findLastTimestampGo s minPos fuel (position - readSize)
    else none

/-- `#findLastTimestamp` (lines 587-628): scan backward up to 100 KiB from
the end of the file. -/
def findLastTimestamp (s : List Char) : Option Int :=
  findLastTimestampGo s (s.length - 100 * 1024) (s.length + 1) s.length

/-- A hexadecimal digit. -/
def hexDigit (n : Nat) : Char :=
  if n < 10 then Char.ofNat (48 + n) else Char.ofNat (87 + n)

/-- `#getFileHeaderSignature` (lines 634-640): lowercase hex encoding of
the first up-to-64 bytes; the empty string for an empty file. -/
def getFileHeaderSignature (s : List Char) : List Char :=
  ((s.take 64).map fun ch => [hexDigit (ch.toNat / 16), hexDigit (ch.toNat % 16)]).flatten

/-! ## Specification-side predicates and sample data -/

/-- A line start of the data model: offset 0 or a position directly after a
newline, inside the file. -/
def LineStartAt (s : List Char) (p : Nat) : Prop :=
  p < s.length ∧ (p = 0 ∨ s[p - 1]? = some '\n')

/-- A line start strictly after a newline (excludes offset 0). -/
def PosStart (s : List Char) (p : Nat) : Prop :=
  0 < p ∧ p < s.length ∧ s[p - 1]? = some '\n'

/-- The line beginning at `p` has a parsed timestamp at least `t`. -/
def tsGe (s : List Char) (t : Int) (p : Nat) : Prop :=
  ∃ v, extractTimeAtOffset s p = some v ∧ t ≤ v

/-- Candidate answers reachable by the binary search from `minOffset = m`:
line starts after a newline, strictly beyond `m`, with timestamp ≥ `t`. -/
def GoodPivot (s : List Char) (t : Int) (m p : Nat) : Prop :=
  m < p ∧ p < s.length ∧ s[p - 1]? = some '\n' ∧ tsGe s t p

/-- Comparison of optional timestamps, trivially true when either side is
absent; used to state monotonicity hypotheses decidably. -/
def tsLeB (a b : Option Int) : Bool :=
  match a, b with
  | some x, some y => decide (x ≤ y)
  | _, _ => true

/-- Strict comparison of optional timestamps, trivially true when either
side is absent. -/
def tsLtB (a b : Option Int) : Bool :=
  match a, b with
  | some x, some y => decide (x < y)
  | _, _ => true

/-- Well-formed synthesized log file: ASCII content, terminated by a final
newline, no line longer than 256 bytes (a newline within 256 bytes of every
position), and every line start carrying a parseable timestamp. -/
def NiceFile (s : List Char) : Prop :=
  (∀ ch ∈ s, ch.toNat < 128) ∧
  s[s.length - 1]? = some '\n' ∧
  (∀ i, i < s.length → ∃ j, j < i + 256 ∧ i ≤ j ∧ j < s.length ∧ s[j]? = some '\n') ∧
  (∀ p, p < s.length → (p = 0 ∨ s[p - 1]? = some '\n') →
    (extractTimeAtOffset s p).isSome = true)

/-- Timestamps are monotonically non-decreasing along line starts. -/
def MonoTs (s : List Char) : Prop :=
  ∀ p, p < s.length → ∀ q, q < s.length →
    (p = 0 ∨ s[p - 1]? = some '\n') → (q = 0 ∨ s[q - 1]? = some '\n') → p ≤ q →
    tsLeB (extractTimeAtOffset s p) (extractTimeAtOffset s q) = true

/-- Timestamps are strictly increasing along line starts. -/
def StrictMonoTs (s : List Char) : Prop :=
  ∀ p, p < s.length → ∀ q, q < s.length →
    (p = 0 ∨ s[p - 1]? = some '\n') → (q = 0 ∨ s[q - 1]? = some '\n') → p < q →
    tsLtB (extractTimeAtOffset s p) (extractTimeAtOffset s q) = true

/-- Decidable test for `tsGe`. -/
def tsGeB (s : List Char) (t : Int) (p : Nat) : Bool :=
  match extractTimeAtOffset s p with
  | some v => decide (t ≤ v)
  | none => false

/-- Decidable test for a timestamp inside `[f, e]`. -/
def tsBetweenB (s : List Char) (f e : Int) (p : Nat) : Bool :=
  match extractTimeAtOffset s p with
  | some v => decide (f ≤ v) && decide (v ≤ e)
  | none => false

/-- The line starts of the file, ascending. -/
def lineStarts (s : List Char) : List Nat :=
  (List.range s.length).filter fun p => decide (p = 0) || (s[p - 1]? == some '\n')

/-- The line beginning at offset `p`: bytes up to the next newline. -/
def lineAt (s : List Char) (p : Nat) : List Char :=
  (s.drop p).takeWhile fun ch => !(ch == '\n')

/-- Modelled from the spec, section 8 item 1: the byte offset of the start
of the first line whose timestamp is ≥ `t`, or the file size if none. -/
def specFirstLineGe (s : List Char) (t : Int) : Nat :=
  (((List.range s.length).filter fun p =>
    (decide (p = 0) || (s[p - 1]? == some '\n')) && tsGeB s t p).headD s.length)

/-- The starts of the lines whose timestamp lies in `[f, e]`, excluding
offset 0 (reachable search results start after a newline). -/
def matchingPosStarts (s : List Char) (f e : Int) : List Nat :=
  (lineStarts s).filter fun p => decide (0 < p) && tsBetweenB s f e p

/-- The lines whose timestamp lies in `[f, e]`, at positive offsets. -/
def matchingLines (s : List Char) (f e : Int) : List (List Char) :=
  (matchingPosStarts s f e).map (lineAt s)

/-- Modelled from the spec, section 3: the lines of the file, one per line
start, each running up to the next newline. -/
def fileLines (s : List Char) : List (List Char) :=
  (lineStarts s).map (lineAt s)

/-- Modelled from the spec, section 8 item 2: all lines (including the
file's first line) whose timestamp lies in `[f, e]`. -/
def specMatchingLines (s : List Char) (f e : Int) : List (List Char) :=
  ((lineStarts s).filter (tsBetweenB s f e)).map (lineAt s)

/-- Modelled from the spec, section 6: the claimed set of valid power
actions, compared after the HTTP layer's `toUpperCase`. -/
def claimedPowerValid (action : List Char) : Bool :=
  (toUpperAscii action) ∈
    ["START".toList, "STOP".toList, "RESTART".toList, "DOWN".toList]

/-! ### Sample contents used by witnesses and counterexamples -/

/-- Two timestamped lines five seconds apart. -/
def twoLines : List Char :=
  ("1/1/2025, 1:00:00 AM a\n" ++ "1/1/2025, 1:00:05 AM b\n").toList

/-- The five-line S1 file of the specification (newline-terminated). -/
def s1File : List Char :=
  ("11/20/2025, 11:00:00 PM hello\n" ++
   "11/20/2025, 11:30:00 PM world\n" ++
   "11/21/2025, 12:00:00 AM foo\n" ++
   "11/21/2025, 00:30:00 continuation\n" ++
   "11/21/2025, 01:00:00 AM bar\n").toList

/-- The S1 file without the trailing newline. -/
def s1FileNoNl : List Char := s1File.dropLast

/-- The persisted `.timecache` sidecar record. -/
structure Sidecar where
  start : Option Int
  end' : Option Int
  size : Nat
  inode : Nat
  headerSig : List Char
deriving DecidableEq, Repr

/-- The default cache used when the sidecar is missing or unreadable
(lines 658-664). -/
def sidecarDefault : Sidecar := ⟨none, none, 0, 0, []⟩

/-- Filesystem write operations observable from `getLogFileTimeRange`;
the JSON serialisation of the sidecar is abstracted to the record itself. -/
inductive FsOp where
  | writeSidecarFile (path : List Char) (data : Sidecar)
  | rename (src dst : List Char)
deriving DecidableEq, Repr

/-- Result of one `getLogFileTimeRange` call: the returned range, the
sidecar record written back (if any), the filesystem operation trace, and
whether the start/end scans were executed. -/
structure TimeRangeOutcome where
  start : Option Int
  end' : Option Int
  wrote : Option Sidecar
  ops : List FsOp
  computedStart : Bool
  computedEnd : Bool
deriving DecidableEq, Repr

/-- Whether the file name marks an active file (`logFileName.endsWith('.log')`,
line 675). -/
def isLogFileName (name : List Char) : Bool :=
  ".log".toList.isSuffixOf name

/-- Recomputation and write-back tail of `getLogFileTimeRange`
(lines 734-763): recompute the needed ends, then persist the record, with
`end` nulled for active files. -/
def gltrWrite (isLogFile : Bool) (s : List Char) (cache : Sidecar)
    (cacheFilePath : List Char) (needsStart needsEnd : Bool) : TimeRangeOutcome :=
  let cache := if needsStart then { cache with start := findFirstTimestamp s }
    else cache
  let cache := if needsEnd then
      match findLastTimestamp s with
      | some endTs => { cache with end' := some endTs }
      | none => cache
    else cache
  let cacheToSave : Sidecar :=
    ⟨cache.start, if isLogFile then none else cache.end',
     cache.size, cache.inode, cache.headerSig⟩
  ⟨cache.start, cache.end', some cacheToSave,
   [FsOp.writeSidecarFile cacheFilePath cacheToSave], needsStart, needsEnd⟩

/-- The short-circuit of `getLogFileTimeRange` (lines 728-733): when nothing
needs recomputation the cached values are returned without touching disk,
otherwise the recompute-and-write tail runs. -/
def gltrFinish (isLogFile : Bool) (s : List Char) (cache : Sidecar)
    (cacheFilePath : List Char) (needsStart needsEnd : Bool) : TimeRangeOutcome :=
  if ¬ needsStart ∧ ¬ needsEnd then
    ⟨cache.start, cache.end', none, [], false, false⟩
  else gltrWrite isLogFile s cache cacheFilePath needsStart needsEnd

/-- Rotation detection of `getLogFileTimeRange` (lines 695-711), active files
only; the sequential `if (!fileRotated && ...)` guards reduce to this
disjunction.  Each guard is itself guarded by cache-field truthiness
(`cache.inode &&`, `cache.size &&`, `cache.headerSig &&`). -/
def fileRotatedB (isLogFile : Bool) (cache : Sidecar) (inode fileSize : Nat)
    (sig : List Char) : Bool :=
  isLogFile &&
    ((cache.inode ≠ 0 && cache.inode ≠ inode) ||
     (cache.size ≠ 0 && decide (fileSize < cache.size)) ||
     (cache.headerSig ≠ ([] : List Char) && sig ≠ cache.headerSig))

/-- End-refresh condition of `getLogFileTimeRange` (lines 721-726): an active
file whose size changed (or which rotated) gets a fresh end. -/
def updateMetaB (isLogFile fileRotated : Bool) (cache : Sidecar)
    (fileSize : Nat) : Bool :=
  isLogFile && (fileRotated || decide (fileSize ≠ cache.size))

/-- Body of `getLogFileTimeRange` after the rotated-file early return
(lines 682-763): rotation checks, metadata refresh, then the finish step. -/
def gltrCompute (isLogFile : Bool) (s : List Char) (inode : Nat) (cache : Sidecar)
    (cacheFilePath : List Char) : TimeRangeOutcome :=
  let fR := fileRotatedB isLogFile cache inode s.length (getFileHeaderSignature s)
  let uM := updateMetaB isLogFile fR cache s.length
  let cache1 := if fR then { cache with start := none } else cache
  let cache2 := if uM then
      { cache1 with
        size := s.length
        inode := inode
        headerSig := getFileHeaderSignature s }
    else cache1
  gltrFinish isLogFile s cache2 cacheFilePath
    (fR || cache.start.isNone) (uM || cache.end'.isNone)

/-- `getLogFileTimeRange` (lines 648-772) for an existing log file of an
existing service: `s` is the file content, `inode` its inode,
`cacheOnDisk` the parsed sidecar (or `none` when missing or unreadable, in
which case the default is used), `cacheFilePath` the sidecar path. -/
def getLogFileTimeRange (logFileName s : List Char) (inode : Nat)
    (cacheOnDisk : Option Sidecar) (cacheFilePath : List Char) : TimeRangeOutcome :=
  let cache := cacheOnDisk.getD sidecarDefault
  let isLogFile := isLogFileName logFileName
  -- rotated files with a fully populated cache are returned as-is (line 678)
  if ¬ isLogFile ∧ cache.start.isSome ∧ cache.end'.isSome then
    ⟨cache.start, cache.end', none, [], false, false⟩
  else gltrCompute isLogFile s inode cache cacheFilePath

/-- Modelled from the spec: an atomic sidecar persist is a write to a
temporary path followed by a rename onto the final path. -/
def AtomicPersist (ops : List FsOp) (path : List Char) : Prop :=
  ∃ tmp data, tmp ≠ path ∧
    ops = [FsOp.writeSidecarFile tmp data, FsOp.rename tmp path]

/-- Shape of an outcome's persistence: either nothing was written, or the
trace is a single direct sidecar write whose record carries the returned
start and whose `end` is nulled exactly for active files. -/
def ShapeOK (isLogFile : Bool) (path : List Char) (R : TimeRangeOutcome) : Prop :=
  (R.wrote = none ∧ R.ops = []) ∨
  (∃ w, R.wrote = some w ∧ R.ops = [FsOp.writeSidecarFile path w] ∧
    w.start = R.start ∧ w.end' = (if isLogFile then none else R.end'))

/-- A sample active-file sidecar: exactly the record the engine writes for
`twoLines` under inode 5. -/
def sampleSidecar : Sidecar :=
  ⟨some 1735693200000, none, twoLines.length, 5, getFileHeaderSignature twoLines⟩

/-- A sample rotated-file sidecar carrying both ends. -/
def sampleRotatedSidecar : Sidecar :=
  ⟨some 1735693200000, some 1735693205000, twoLines.length, 5,
   getFileHeaderSignature twoLines⟩

/-! ## Decidability of the well-formedness predicates -/

instance (s : List Char) : Decidable (NiceFile s) := by
  unfold NiceFile; infer_instance

instance (s : List Char) : Decidable (MonoTs s) := by
  unfold MonoTs; exact Nat.decidableBallLT _ _

instance (s : List Char) : Decidable (StrictMonoTs s) := by
  unfold StrictMonoTs; exact Nat.decidableBallLT _ _

instance (s : List Char) (p : Nat) : Decidable (PosStart s p) := by
  unfold PosStart; infer_instance

def appLogName : List Char := "app.log".toList

def rotatedName : List Char := "app.log.1".toList

def cachePathName : List Char := "app.log.timecache".toList

/-! ## Characterisation of the index-search helpers -/

theorem findCharIdx_some (l : List Char) (ch : Char) :
    ∀ k, findCharIdx l ch = some k →
      k < l.length ∧ l[k]? = some ch ∧ ∀ j, j < k → l[j]? ≠ some ch := by
  induction l with
  | nil => intro k hk; simp [findCharIdx] at hk
  | cons a rest ih =>
    intro k hk
    by_cases ha : a = ch
    · simp only [findCharIdx, if_pos ha, Option.some.injEq] at hk
      subst hk
      refine ⟨by simp, by simp [ha], by omega⟩
    · simp only [findCharIdx, if_neg ha, Option.map_eq_some'] at hk
      obtain ⟨k', hk', rfl⟩ := hk
      obtain ⟨h1, h2, h3⟩ := ih k' hk'
      refine ⟨by simpa using h1, by simpa using h2, ?_⟩
      intro j hj
      match j with
      | 0 => simpa using ha
      | j + 1 =>
        have := h3 j (by omega)
        simpa using this

theorem findCharIdx_none (l : List Char) (ch : Char) :
    findCharIdx l ch = none → ∀ j, j < l.length → l[j]? ≠ some ch := by
  induction l with
  | nil => intro _ j hj; simp at hj
  | cons a rest ih =>
    intro hk j hj
    by_cases ha : a = ch
    · simp [findCharIdx, ha] at hk
    · simp only [findCharIdx, if_neg ha, Option.map_eq_none'] at hk
      match j with
      | 0 => simpa using ha
      | j + 1 =>
        have := ih hk j (by simpa using hj)
        simpa using this

theorem findCharIdx_isSome (l : List Char) (ch : Char) (k : Nat)
    (hk : k < l.length) (hch : l[k]? = some ch) :
    (findCharIdx l ch).isSome = true := by
  cases h : findCharIdx l ch with
  | some _ => rfl
  | none => exact absurd hch (findCharIdx_none l ch h k hk)

theorem idxFrom_some (l : List Char) (ch : Char) (start k : Nat)
    (h : idxFrom l ch start = some k) :
    start ≤ k ∧ k < l.length ∧ l[k]? = some ch ∧
      ∀ j, start ≤ j → j < k → l[j]? ≠ some ch := by
  simp only [idxFrom, Option.map_eq_some'] at h
  obtain ⟨k', hk', rfl⟩ := h
  obtain ⟨h1, h2, h3⟩ := findCharIdx_some _ ch k' hk'
  have hlen : (l.drop start).length = l.length - start := by simp
  have hget : ∀ i, (l.drop start)[i]? = l[start + i]? := by
    intro i; simp [List.getElem?_drop]
  refine ⟨by omega, by rw [hlen] at h1; omega, ?_, ?_⟩
  · have := h2; rw [hget] at this; simpa [Nat.add_comm] using this
  · intro j hj1 hj2
    have := h3 (j - start) (by omega)
    rw [hget] at this
    have hj : start + (j - start) = j := by omega
    rw [hj] at this; exact this

theorem idxFrom_none (l : List Char) (ch : Char) (start : Nat)
    (h : idxFrom l ch start = none) :
    ∀ j, start ≤ j → j < l.length → l[j]? ≠ some ch := by
  simp only [idxFrom, Option.map_eq_none'] at h
  intro j hj1 hj2
  have := findCharIdx_none _ ch h (j - start) (by simp; omega)
  rw [List.getElem?_drop] at this
  have hj : start + (j - start) = j := by omega
  rw [hj] at this; exact this

theorem idxFrom_isSome (l : List Char) (ch : Char) (start k : Nat)
    (h1 : start ≤ k) (h2 : k < l.length) (h3 : l[k]? = some ch) :
    (idxFrom l ch start).isSome = true := by
  cases h : idxFrom l ch start with
  | some _ => rfl
  | none => exact absurd h3 (idxFrom_none l ch start h k h1 h2)

theorem idxFrom_eq_some (l : List Char) (ch : Char) (start k : Nat)
    (h1 : start ≤ k) (h2 : k < l.length) (h3 : l[k]? = some ch)
    (h4 : ∀ j, start ≤ j → j < k → l[j]? ≠ some ch) :
    idxFrom l ch start = some k := by
  cases h : idxFrom l ch start with
  | none => exact absurd h3 (idxFrom_none l ch start h k h1 h2)
  | some k' =>
    obtain ⟨ha, hb, hc, hd⟩ := idxFrom_some l ch start k' h
    have : k' = k := by
      rcases Nat.lt_trichotomy k' k with h5 | h5 | h5
      · exact absurd hc (h4 k' ha h5)
      · exact h5
      · exact absurd h3 (hd k h1 h5)
    rw [this]

/-- The global next-newline search agrees with the search inside the
512-byte window read around `mid`, provided the newline is at distance
under 256. -/
theorem idxFrom_chunk_eq (s : List Char) (mid g : Nat)
    (hg : idxFrom s '\n' mid = some g) (hlt : g < mid + 256) :
    idxFrom ((s.drop (mid - 256)).take 512) '\n' (mid - (mid - 256))
      = some (g - (mid - 256)) := by
  obtain ⟨ha, hb, hc, hd⟩ := idxFrom_some s '\n' mid g hg
  have hget : ∀ i, i < 512 → ((s.drop (mid - 256)).take 512)[i]? = s[(mid - 256) + i]? := by
    intro i hi
    rw [List.getElem?_take, if_pos hi, List.getElem?_drop]
  have hglt : g - (mid - 256) < 512 := by omega
  refine idxFrom_eq_some _ _ _ _ (by omega) ?_ ?_ ?_
  · simp only [List.length_take, List.length_drop]
    omega
  · rw [hget _ hglt]
    have : mid - 256 + (g - (mid - 256)) = g := by omega
    rw [this]; exact hc
  · intro j hj1 hj2
    rw [hget _ (by omega)]
    exact hd ((mid - 256) + j) (by omega) (by omega)

/-- When the window contains no newline at or after `mid`, neither does the
rest of the file, provided the next newline would be at distance under
256 — contrapositive transfer used to rule out the no-newline branch. -/
theorem idxFrom_chunk_isSome (s : List Char) (mid g : Nat)
    (hg : idxFrom s '\n' mid = some g) (hlt : g < mid + 256) :
    (idxFrom ((s.drop (mid - 256)).take 512) '\n' (mid - (mid - 256))).isSome = true := by
  rw [idxFrom_chunk_eq s mid g hg hlt]; rfl

/-- Any line start strictly beyond `mid` is at or beyond the position after
the first newline at or after `mid`. -/
theorem pivot_min (s : List Char) (mid g p : Nat)
    (hg : idxFrom s '\n' mid = some g)
    (hmid : mid < p) (hp : s[p - 1]? = some '\n') : g + 1 ≤ p := by
  obtain ⟨ha, hb, hc, hd⟩ := idxFrom_some s '\n' mid g hg
  by_contra hcon
  exact (hd (p - 1) (by omega) (by omega)) hp

/-- The first newline at or after a position exists in a `NiceFile`, at
distance under 256. -/
theorem nice_nextNl (s : List Char) (hs : NiceFile s) (mid : Nat)
    (hmid : mid < s.length) :
    ∃ g, idxFrom s '\n' mid = some g ∧ g < mid + 256 ∧ g < s.length := by
  obtain ⟨-, -, hshort, -⟩ := hs
  obtain ⟨j, hj1, hj2, hj3, hj4⟩ := hshort mid hmid
  cases h : idxFrom s '\n' mid with
  | none => exact absurd hj4 (idxFrom_none s '\n' mid h j hj2 hj3)
  | some g =>
    obtain ⟨ha, hb, hc, hd⟩ := idxFrom_some s '\n' mid g h
    have hgj : g ≤ j := by
      by_contra hcon
      exact (hd j hj2 (by omega)) hj4
    exact ⟨g, rfl, by omega, hb⟩

/-! ## Facts about the timestamp parse used by the search proofs -/

theorem numSep_none_of_nondigit (sep a : Char) (rest : List Char)
    (h : digitVal a = none) : numSep sep (a :: rest) = none := by
  cases rest with
  | nil => simp [numSep, h]
  | cons b rest2 => simp [numSep, h]

theorem parseTs_head_digit (l : List Char) (v : Int) (h : parseTs l = some v) :
    ∃ d rest, l = d :: rest ∧ ('0' ≤ d ∧ d ≤ '9') := by
  cases l with
  | nil => simp [parseTs, parseTsToken, numSep] at h
  | cons a rest =>
    refine ⟨a, rest, rfl, ?_⟩
    by_contra hd
    have hnone : digitVal a = none := by
      unfold digitVal
      rw [if_neg hd]
    rw [parseTs, parseTsToken] at h
    rw [numSep_none_of_nondigit _ _ _ hnone] at h
    simp at h

theorem extract_head_digit (s : List Char) (p : Nat) (v : Int)
    (h : extractTimeAtOffset s p = some v) :
    ∃ d, (s.drop p).head? = some d ∧ ('0' ≤ d ∧ d ≤ '9') := by
  unfold extractTimeAtOffset at h
  split at h
  · obtain ⟨d, rest, hdr, hd⟩ := parseTs_head_digit _ _ h
    cases hdrop : s.drop p with
    | nil => rw [hdrop] at hdr; simp at hdr
    | cons a l' =>
      rw [hdrop] at hdr
      simp only [List.take_succ_cons, List.cons.injEq] at hdr
      exact ⟨a, by simp, hdr.1 ▸ hd⟩
  · exact absurd h (by simp)

/-- A decimal digit is not whitespace. -/
theorem digit_not_ws (d : Char) (hd : '0' ≤ d ∧ d ≤ '9') : isWsCh d = false := by
  by_contra h
  have hws : d = ' ' ∨ d = '\t' ∨ d = '\n' ∨ d = '\r' ∨ d = '\x0b' ∨ d = '\x0c' := by
    by_contra hcon
    push_neg at hcon
    have := (by simpa [isWsCh] using h :
      ¬d = ' ' → ¬d = '\t' → ¬d = '\n' → ¬d = '\r' → ¬d = '\x0b' → d = '\x0c')
    exact hcon.2.2.2.2.2
      (this hcon.1 hcon.2.1 hcon.2.2.1 hcon.2.2.2.1 hcon.2.2.2.2.1)
  rcases hws with h1 | h1 | h1 | h1 | h1 | h1 <;>
    (subst h1; exact absurd hd.1 (by decide))

/-- A decimal digit is not a newline. -/
theorem digit_ne_nl (d : Char) (hd : '0' ≤ d ∧ d ≤ '9') : d ≠ '\n' := by
  intro h
  subst h
  exact absurd hd.1 (by decide)

/-! ## Correctness of the binary search loop

Invariant-based analysis of `findLoopF` for well-formed files: the answer
candidates are the `GoodPivot` positions, the loop keeps every candidate
strictly above `low`, keeps every candidate below the current result
reachable below `high`, and the result is always a candidate or the file
size.  At termination the result is the least candidate, or the file size
when there is none. -/

theorem findLoopF_zero (s : List Char) (t : Int) (low high result : Nat) :
    findLoopF s t 0 low high result = none := rfl

theorem findLoopF_succ (s : List Char) (t : Int) (fuel low high result : Nat) :
    findLoopF s t (fuel + 1) low high result =
      if low < high then
        match findIter s t low high result with
        | .brk r => some r
        | .cont low2 high2 result2 => findLoopF s t fuel low2 high2 result2
      else some result := rfl

/-- One loop iteration, characterised through the first newline `g` at or
after the midpoint, when that newline is inside the read window. -/
theorem findIter_eq (s : List Char) (t : Int) (low high result g : Nat)
    (hlh : low < high) (hhs : high ≤ s.length)
    (hg : idxFrom s '\n' ((low + high) / 2) = some g)
    (hglt : g < (low + high) / 2 + 256) :
    findIter s t low high result =
      match pivotTime s (g + 1) with
      | none => .cont low ((low + high) / 2) result
      | some (v, ls1) =>
        if t ≤ v then .cont low ((low + high) / 2) ls1
        else .cont (if ls1 ≤ (low + high) / 2 then (low + high) / 2 + 1 else ls1)
          high result := by
  have hmid2 : (low + high) / 2 < high := by omega
  have hmidlen : (low + high) / 2 < s.length := by omega
  have hgmid := (idxFrom_some s '\n' ((low + high) / 2) g hg).1
  have hchunk : ¬ (((s.drop ((low + high) / 2 - 256)).take 512).length = 0) := by
    simp only [List.length_take, List.length_drop]
    omega
  have hls : (low + high) / 2 - 256 + (g - ((low + high) / 2 - 256)) + 1 = g + 1 := by
    omega
  simp only [findIter]
  rw [if_neg hchunk]
  simp only [idxFrom_chunk_eq s ((low + high) / 2) g hg hglt]
  rw [hls]

theorem findLoopF_spec (s : List Char) (t : Int) (m : Nat)
    (hnice : NiceFile s) (hmono : MonoTs s) :
    ∀ fuel low high result,
      m ≤ low → high ≤ s.length → high - low < fuel →
      (result = s.length ∨ GoodPivot s t m result) →
      (∀ p, GoodPivot s t m p → low < p) →
      (∀ p, GoodPivot s t m p → p < result → p ≤ high) →
      ∃ r, findLoopF s t fuel low high result = some r ∧
        (r = s.length ∨ GoodPivot s t m r) ∧
        (∀ p, GoodPivot s t m p → r ≤ p) := by
  intro fuel
  induction fuel with
  | zero => intro low high result _ _ hf _ _ _; omega
  | succ fuel ih =>
    intro low high result hml hhs hf hres hlowinv hhighinv
    rw [findLoopF_succ]
    by_cases hlh : low < high
    case neg =>
      rw [if_neg hlh]
      refine ⟨result, rfl, hres, ?_⟩
      intro p hp
      by_contra hcon
      have h1 := hlowinv p hp
      have h2 := hhighinv p hp (by omega)
      omega
    case pos =>
      rw [if_pos hlh]
      have hmid1 : low ≤ (low + high) / 2 := by omega
      have hmid2 : (low + high) / 2 < high := by omega
      have hmidlen : (low + high) / 2 < s.length := by omega
      obtain ⟨g, hg, hglt, hgs⟩ := nice_nextNl s hnice ((low + high) / 2) hmidlen
      have hgspec := idxFrom_some s '\n' ((low + high) / 2) g hg
      have hgmid : (low + high) / 2 ≤ g := hgspec.1
      have hgnl : s[g]? = some '\n' := hgspec.2.2.1
      rw [findIter_eq s t low high result g hlh hhs hg hglt]
      set mid := (low + high) / 2 with hmiddef
      have hnlshift : s[g + 1 - 1]? = some '\n' := by simpa using hgnl
      by_cases hE : g + 1 < s.length
      case pos =>
        have htimed := hnice.2.2.2
        have hsome := htimed (g + 1) hE (Or.inr hnlshift)
        obtain ⟨v, hv⟩ := Option.isSome_iff_exists.mp hsome
        have hpt : pivotTime s (g + 1) = some (v, g + 1) := by
          simp [pivotTime, hv]
        by_cases hcmp : t ≤ v
        case pos =>
          simp only [hpt, if_pos hcmp]
          have hGood : GoodPivot s t m (g + 1) :=
            ⟨by omega, hE, hnlshift, v, hv, hcmp⟩
          refine ih low mid (g + 1) hml (by omega) (by omega) (Or.inr hGood)
            hlowinv ?_
          intro p hp hlt
          by_contra hcon
          have := pivot_min s mid g p hg (by omega) hp.2.2.1
          omega
        case neg =>
          simp only [hpt, if_neg hcmp, if_neg (by omega : ¬ (g + 1 ≤ mid))]
          refine ih (g + 1) high result (by omega) hhs (by omega) hres ?_ hhighinv
          intro p hp
          by_contra hcon
          push_neg at hcon
          obtain ⟨hpm, hpl, hpnl, w, hw, htw⟩ := hp
          rcases Nat.lt_or_ge p (g + 1) with hplt | hpge
          · have hpmid : p ≤ mid := by
              by_contra hcon2
              have := pivot_min s mid g p hg (by omega) hpnl
              omega
            have hm := hmono p hpl (g + 1) hE (Or.inr hpnl) (Or.inr hnlshift)
              (by omega)
            rw [hw, hv] at hm
            simp only [tsLeB, decide_eq_true_eq] at hm
            omega
          · have hpeq : p = g + 1 := by omega
            subst hpeq
            rw [hw] at hv
            have hwv : w = v := Option.some.inj hv
            omega
      case neg =>
        have hext : extractTimeAtOffset s (g + 1) = none := by
          simp [extractTimeAtOffset, hE]
        have hpt : pivotTime s (g + 1) = none := by
          simp [pivotTime, hext, hE]
        simp only [hpt]
        refine ih low mid result hml (by omega) (by omega) hres hlowinv ?_
        intro p hp hlt
        by_contra hcon
        have := pivot_min s mid g p hg (by omega) hp.2.2.1
        have hpl := hp.2.1
        omega

/-- Every continuing iteration strictly shrinks the search interval. -/
theorem findIter_cont_dec (s : List Char) (t : Int)
    (low high result l2 h2 r2 : Nat) (hlh : low < high)
    (h : findIter s t low high result = .cont l2 h2 r2) : h2 - l2 < high - low := by
  simp only [findIter] at h
  split at h
  · exact absurd h (by simp)
  · split at h
    · cases h; omega
    · split at h
      · cases h; omega
      · split at h
        · cases h; omega
        · split at h
          · cases h; omega
          · cases h; omega

/-- The iteration budget `high - low + 1` always suffices: each iteration
either breaks or strictly decreases `high - low`. -/
theorem findLoopF_terminates (s : List Char) (t : Int) :
    ∀ fuel low high result, high - low < fuel →
      ∃ r, findLoopF s t fuel low high result = some r := by
  intro fuel
  induction fuel with
  | zero => intro low high result hf; omega
  | succ fuel ih =>
    intro low high result hf
    rw [findLoopF_succ]
    by_cases hlh : low < high
    · rw [if_pos hlh]
      cases hit : findIter s t low high result with
      | brk r => exact ⟨r, rfl⟩
      | cont l2 h2 r2 =>
        exact ih l2 h2 r2 (by
          have := findIter_cont_dec s t low high result l2 h2 r2 hlh hit
          omega)
    · rw [if_neg hlh]
      exact ⟨result, rfl⟩

/-- Characterisation of `findOffsetByTime` on well-formed monotone files:
the result is the least reachable candidate (a line start after a newline,
beyond `minOffset`, with timestamp at least the target), or the file size
when there is none. -/
theorem findOffsetByTime_spec (s : List Char) (t : Int) (b : Bool) (m : Nat)
    (hms : m ≤ s.length) (hnice : NiceFile s) (hmono : MonoTs s) :
    (GoodPivot s t m (findOffsetByTime s t b m) ∨ findOffsetByTime s t b m = s.length) ∧
    ∀ p, GoodPivot s t m p → findOffsetByTime s t b m ≤ p := by
  obtain ⟨r, hr, h1, h2⟩ := findLoopF_spec s t m hnice hmono (s.length - m + 1) m
    s.length s.length (le_refl m) (le_refl _) (by omega) (Or.inl rfl)
    (fun p hp => hp.1) (fun p hp hlt => le_of_lt hp.2.1)
  unfold findOffsetByTime
  rw [hr]
  simp only [Option.getD_some]
  exact ⟨h1.symm, h2⟩

/-! ## Decomposition of `split('\n')` into data-model lines -/

theorem splitNl_no_nl (l : List Char) (h : ∀ ch ∈ l, ch ≠ '\n') :
    splitNl l = [l] := by
  induction l with
  | nil => rfl
  | cons a rest ih =>
    have ha : a ≠ '\n' := h a (by simp)
    have hrest := ih fun ch hch => h ch (by simp [hch])
    simp only [splitNl, if_neg ha, hrest]

theorem splitNl_append_nl (l r : List Char) (h : ∀ ch ∈ l, ch ≠ '\n') :
    splitNl (l ++ '\n' :: r) = l :: splitNl r := by
  induction l with
  | nil => simp [splitNl]
  | cons a rest ih =>
    have ha : a ≠ '\n' := h a (by simp)
    have hrest := ih fun ch hch => h ch (by simp [hch])
    simp only [List.cons_append, splitNl, List.append_eq, if_neg ha, hrest]

theorem takeWhile_eq_take_of_findCharIdx (l : List Char) :
    ∀ k, findCharIdx l '\n' = some k →
      l.takeWhile (fun ch => !(ch == '\n')) = l.take k := by
  induction l with
  | nil => intro k hk; simp [findCharIdx] at hk
  | cons a rest ih =>
    intro k hk
    by_cases ha : a = '\n'
    · simp only [findCharIdx, if_pos ha, Option.some.injEq] at hk
      subst hk
      simp [List.takeWhile_cons, ha]
    · simp only [findCharIdx, if_neg ha, Option.map_eq_some'] at hk
      obtain ⟨k', hk', rfl⟩ := hk
      simp [List.takeWhile_cons, ha, ih k' hk']

theorem take_no_nl (l : List Char) (k : Nat)
    (h : ∀ j, j < k → l[j]? ≠ some '\n') : ∀ ch ∈ l.take k, ch ≠ '\n' := by
  intro ch hch
  obtain ⟨j, hj, hget⟩ := List.getElem_of_mem hch
  have hjk : j < k := by
    have := List.length_take k l
    omega
  have : (l.take k)[j]? = some ch := by
    rw [List.getElem?_eq_getElem hj, hget]
  rw [List.getElem?_take, if_pos hjk] at this
  intro hcon
  subst hcon
  exact h j hjk this

/-- The suffix from a position decomposes at the first newline. -/
theorem drop_decomp (s : List Char) (p g : Nat)
    (hg : idxFrom s '\n' p = some g) :
    s.drop p = (s.drop p).take (g - p) ++ '\n' :: s.drop (g + 1) := by
  obtain ⟨h1, h2, h3, h4⟩ := idxFrom_some s '\n' p g hg
  have hsg : s[g] = '\n' := by
    have := List.getElem?_eq_getElem h2
    rw [h3] at this
    exact (Option.some.inj this).symm
  conv_lhs => rw [← List.take_append_drop (g - p) (s.drop p)]
  congr 1
  rw [List.drop_drop]
  have hpg : p + (g - p) = g := by omega
  rw [hpg]
  rw [List.drop_eq_getElem_cons h2, hsg]

/-- `lineAt` is the prefix up to the first newline. -/
theorem lineAt_eq_take (s : List Char) (p g : Nat)
    (hg : idxFrom s '\n' p = some g) :
    lineAt s p = (s.drop p).take (g - p) := by
  have hfc : findCharIdx (s.drop p) '\n' = some (g - p) := by
    have : idxFrom s '\n' p = (findCharIdx (s.drop p) '\n').map (· + p) := rfl
    rw [this] at hg
    obtain ⟨k, hk, hkp⟩ := Option.map_eq_some'.mp hg
    have : k = g - p := by omega
    rw [← this]
    exact hk
  exact takeWhile_eq_take_of_findCharIdx (s.drop p) (g - p) hfc

/-- Characters of a line never include the newline. -/
theorem lineAt_no_nl (s : List Char) (p g : Nat)
    (hg : idxFrom s '\n' p = some g) : ∀ ch ∈ lineAt s p, ch ≠ '\n' := by
  rw [lineAt_eq_take s p g hg]
  obtain ⟨h1, h2, h3, h4⟩ := idxFrom_some s '\n' p g hg
  refine take_no_nl (s.drop p) (g - p) ?_
  intro j hj
  rw [List.getElem?_drop]
  exact h4 (p + j) (by omega) (by omega)

theorem lineAt_length (s : List Char) (p g : Nat)
    (hg : idxFrom s '\n' p = some g) : (lineAt s p).length = g - p := by
  rw [lineAt_eq_take s p g hg]
  obtain ⟨h1, h2, h3, h4⟩ := idxFrom_some s '\n' p g hg
  simp only [List.length_take, List.length_drop]
  omega

/-- Membership in `lineStarts`. -/
theorem mem_lineStarts (s : List Char) (p : Nat) :
    p ∈ lineStarts s ↔ (p < s.length ∧ (p = 0 ∨ s[p - 1]? = some '\n')) := by
  unfold lineStarts
  rw [List.mem_filter, List.mem_range]
  constructor
  · rintro ⟨h1, h2⟩
    refine ⟨h1, ?_⟩
    rcases Bool.or_eq_true_iff.mp h2 with h | h
    · exact Or.inl (by simpa using h)
    · exact Or.inr (by simpa using h)
  · rintro ⟨h1, h2⟩
    refine ⟨h1, ?_⟩
    rcases h2 with h | h
    · simp [h]
    · simp [h]

/-- Splitting off the least element of a filtered range. -/
theorem range_filter_cons (n : Nat) (A B : Nat → Bool) (s0 : Nat)
    (hsn : s0 < n) (hAs : A s0 = true)
    (hA_ge : ∀ p, A p = true → s0 ≤ p)
    (hAB : ∀ p, A p = true → p ≠ s0 → B p = true)
    (hBA : ∀ p, B p = true → A p = true ∧ s0 < p) :
    (List.range n).filter A = s0 :: (List.range n).filter B := by
  induction n with
  | zero => omega
  | succ n ih =>
    rw [List.range_succ, List.filter_append, List.filter_append]
    by_cases hs : s0 < n
    · rw [ih hs]
      have : (List.filter A [n]) = (List.filter B [n]) := by
        by_cases hAn : A n = true
        · have hBn : B n = true := hAB n hAn (by omega)
          simp [List.filter, hAn, hBn]
        · have hBn : ¬ B n = true := fun hBn => hAn (hBA n hBn).1
          simp [List.filter, Bool.eq_false_iff.mpr hAn, Bool.eq_false_iff.mpr hBn]
      rw [this, List.cons_append]
    · have hs0 : s0 = n := by omega
      subst hs0
      have hA_nil : (List.range s0).filter A = [] := by
        rw [List.filter_eq_nil_iff]
        intro p hp
        rw [List.mem_range] at hp
        intro hA
        exact absurd (hA_ge p hA) (by omega)
      have hB_nil : (List.range s0).filter B = [] := by
        rw [List.filter_eq_nil_iff]
        intro p hp
        rw [List.mem_range] at hp
        intro hB
        exact absurd (hBA p hB).2 (by omega)
      have hB_single : (List.filter B [s0]) = [] := by
        simp only [List.filter]
        have : ¬ B s0 = true := fun hB => absurd (hBA s0 hB).2 (by omega)
        simp [Bool.eq_false_iff.mpr this]
      rw [hA_nil, hB_nil, hB_single]
      simp [List.filter, hAs]

/-- Non-strict monotonicity follows from strict monotonicity. -/
theorem monoTs_of_strict (s : List Char) (h : StrictMonoTs s) : MonoTs s := by
  intro p hp q hq hps hqs hpq
  rcases Nat.eq_or_lt_of_le hpq with rfl | hlt
  · cases extractTimeAtOffset s p <;> simp [tsLeB]
  · have := h p hp q hq hps hqs hlt
    revert this
    cases extractTimeAtOffset s p <;> cases extractTimeAtOffset s q <;>
      simp [tsLtB, tsLeB] <;> omega

/-- Splitting the byte slice between two line boundaries of a terminated
file yields exactly the data-model lines starting inside the slice,
followed by the empty trailing fragment. -/
theorem splitNl_slice (s : List Char) (hterm : s[s.length - 1]? = some '\n') :
    ∀ n b e, e - b ≤ n → b ≤ e → e ≤ s.length →
      (LineStartAt s b ∨ b = s.length) →
      (LineStartAt s e ∨ e = s.length) →
      splitNl ((s.drop b).take (e - b)) =
        (((lineStarts s).filter fun p => decide (b ≤ p) && decide (p < e)).map
          (lineAt s)) ++ [[]] := by
  intro n
  induction n with
  | zero =>
    intro b e h1 h2 h3 _ _
    have hbe : e = b := by omega
    subst hbe
    rw [Nat.sub_self, List.take_zero]
    have : ((lineStarts s).filter fun p => decide (e ≤ p) && decide (p < e)) = [] := by
      rw [List.filter_eq_nil_iff]
      intro p _
      simp only [Bool.and_eq_true, decide_eq_true_eq]
      omega
    rw [this]
    rfl
  | succ n ih =>
    intro b e hn hbe hes hbS heS
    by_cases heb : e ≤ b
    · have hbe2 : e = b := by omega
      subst hbe2
      rw [Nat.sub_self, List.take_zero]
      have : ((lineStarts s).filter fun p => decide (e ≤ p) && decide (p < e)) = [] := by
        rw [List.filter_eq_nil_iff]
        intro p _
        simp only [Bool.and_eq_true, decide_eq_true_eq]
        omega
      rw [this]
      rfl
    · push_neg at heb
      have hbl : b < s.length := by omega
      have hbL : LineStartAt s b := by
        rcases hbS with h | h
        · exact h
        · omega
      have hex : (idxFrom s '\n' b).isSome = true :=
        idxFrom_isSome s '\n' b (s.length - 1) (by omega) (by omega) hterm
      obtain ⟨g, hg⟩ := Option.isSome_iff_exists.mp hex
      obtain ⟨hg1, hg2, hg3, hg4⟩ := idxFrom_some s '\n' b g hg
      have hge : g < e := by
        rcases heS with hL | hlen
        · rcases hL.2 with h0 | hnl
          · omega
          · by_contra hcon
            push_neg at hcon
            exact (hg4 (e - 1) (by omega) (by omega)) hnl
        · omega
      have hXlen : ((s.drop b).take (g - b)).length = g - b := by
        simp only [List.length_take, List.length_drop]
        omega
      have hdec : (s.drop b).take (e - b) =
          lineAt s b ++ '\n' :: ((s.drop (g + 1)).take (e - (g + 1))) := by
        rw [lineAt_eq_take s b g hg]
        conv_lhs => rw [drop_decomp s b g hg]
        rw [List.take_append_eq_append_take]
        congr 1
        · rw [List.take_take]
          congr 1
          omega
        · rw [hXlen]
          have he1 : e - b - (g - b) = (e - (g + 1)) + 1 := by omega
          rw [he1, List.take_succ_cons]
      rw [hdec, splitNl_append_nl _ _ (lineAt_no_nl s b g hg)]
      have hg1S : LineStartAt s (g + 1) ∨ g + 1 = s.length := by
        by_cases hl : g + 1 < s.length
        · exact Or.inl ⟨hl, Or.inr (by simpa using hg3)⟩
        · right; omega
      rw [ih (g + 1) e (by omega) (by omega) hes hg1S heS]
      have hfilter : ((lineStarts s).filter fun p => decide (b ≤ p) && decide (p < e))
          = b :: ((lineStarts s).filter fun p => decide (g + 1 ≤ p) && decide (p < e)) := by
        unfold lineStarts
        rw [List.filter_filter, List.filter_filter]
        apply range_filter_cons s.length _ _ b hbl
        · simp only [Bool.and_eq_true, Bool.or_eq_true, decide_eq_true_eq, beq_iff_eq]
          refine ⟨⟨le_refl b, heb⟩, ?_⟩
          rcases hbL.2 with h0 | hnl
          · exact Or.inl h0
          · exact Or.inr hnl
        · intro p hp
          simp only [Bool.and_eq_true, decide_eq_true_eq] at hp
          exact hp.1.1
        · intro p hp hpb
          simp only [Bool.and_eq_true, Bool.or_eq_true, decide_eq_true_eq,
            beq_iff_eq] at hp ⊢
          obtain ⟨⟨hbp, hpe⟩, hLS⟩ := hp
          have hpb2 : b < p := by omega
          have hnl : s[p - 1]? = some '\n' := by
            rcases hLS with h0 | hnl
            · omega
            · exact hnl
          have hgp : g ≤ p - 1 := by
            by_contra hcon
            exact (hg4 (p - 1) (by omega) (by omega)) hnl
          exact ⟨⟨by omega, hpe⟩, Or.inr hnl⟩
        · intro p hp
          simp only [Bool.and_eq_true, Bool.or_eq_true, decide_eq_true_eq,
            beq_iff_eq] at hp ⊢
          exact ⟨⟨⟨by omega, hp.1.2⟩, hp.2⟩, by omega⟩
      rw [hfilter, List.map_cons, List.cons_append]

/-- A line whose start carries a timestamp survives the whitespace filter. -/
theorem lineAt_any_nonws (s : List Char) (q : Nat) (v : Int)
    (hv : extractTimeAtOffset s q = some v) :
    (lineAt s q).any (fun ch => ¬ isWsCh ch) = true := by
  obtain ⟨d, hd, hdig⟩ := extract_head_digit s q v hv
  cases hdrop : s.drop q with
  | nil => rw [hdrop] at hd; simp at hd
  | cons a rest =>
    rw [hdrop] at hd
    simp only [List.head?_cons, Option.some.injEq] at hd
    subst hd
    unfold lineAt
    rw [hdrop]
    rw [List.takeWhile_cons]
    have hne : (!(a == '\n')) = true := by
      simp [digit_ne_nl a hdig]
    rw [hne]
    simp only [if_true, List.any_cons, Bool.or_eq_true]
    left
    simp [digit_not_ws a hdig]

/-- The slice returned by the two binary searches contains exactly the
matching lines: central helper for the range-search claim. -/
theorem searchLines_eq_matching (s : List Char) (f e : Int) (limit : Nat)
    (hnice : NiceFile s) (hmono : MonoTs s)
    (hf0 : ¬ f = 0) (he0 : ¬ e = 0)
    (hhit : ∃ p, PosStart s p ∧ tsBetweenB s f e p = true)
    (hlimit : (matchingLines s f e).length ≤ limit) :
    (searchLogLinesByTimeRange s (some f) (some e) limit 0 []).lines
        = matchingLines s f e ∧
      (searchLogLinesByTimeRange s (some f) (some e) limit 0 []).total
        = (matchingLines s f e).length := by
  obtain ⟨p, ⟨hp0, hpl, hpnl⟩, hpts⟩ := hhit
  obtain ⟨w, hw, hfw, hwe⟩ : ∃ w, extractTimeAtOffset s p = some w ∧ f ≤ w ∧ w ≤ e := by
    revert hpts
    unfold tsBetweenB
    cases hx : extractTimeAtOffset s p
    · simp
    · simp only [Bool.and_eq_true, decide_eq_true_eq]
      exact fun h => ⟨_, rfl, h.1, h.2⟩
  have htimed := hnice.2.2.2
  -- the lower-bound search
  have spec0 := findOffsetByTime_spec s f true 0 (by omega) hnice hmono
  set p0 := findOffsetByTime s f true 0 with hp0def
  have hpGood : GoodPivot s f 0 p := ⟨hp0, hpl, hpnl, w, hw, hfw⟩
  have hp0le : p0 ≤ p := spec0.2 p hpGood
  have hp0Good : GoodPivot s f 0 p0 := by
    rcases spec0.1 with h | h
    · exact h
    · omega
  obtain ⟨hp0pos, hp0len, hp0nl, v0, hv0, hfv0⟩ := hp0Good
  -- timestamp at `p0` is inside the range
  have hv0e : v0 ≤ e := by
    have hm := hmono p0 hp0len p hpl (Or.inr hp0nl) (Or.inr hpnl) hp0le
    rw [hv0, hw] at hm
    simp only [tsLeB, decide_eq_true_eq] at hm
    omega
  -- the upper-bound search
  have spec1 := findOffsetByTime_spec s (e + 1) false p0 (by omega) hnice hmono
  set e1 := findOffsetByTime s (e + 1) false p0 with he1def
  have he1gt : p0 < e1 := by
    rcases spec1.1 with h | h
    · exact h.1
    · exact h ▸ hp0len
  have he1len : e1 ≤ s.length := by
    rcases spec1.1 with h | h
    · exact le_of_lt h.2.1
    · exact le_of_eq h
  -- evaluate the search function
  have hterm := hnice.2.1
  have hslice := splitNl_slice s hterm (e1 - p0) p0 e1 (le_refl _) (by omega) he1len
    (Or.inl ⟨hp0len, Or.inr hp0nl⟩)
    (by
      rcases spec1.1 with h | h
      · exact Or.inl ⟨h.2.1, Or.inr h.2.2.1⟩
      · exact Or.inr h)
  -- every line start in the slice carries a timestamp and survives the filter
  have hkeep : ∀ line ∈ ((lineStarts s).filter fun q =>
      decide (p0 ≤ q) && decide (q < e1)).map (lineAt s),
      (line.any fun ch => ¬ isWsCh ch) = true := by
    intro line hline
    obtain ⟨q, hq, rfl⟩ := List.mem_map.mp hline
    have hqmem := List.mem_filter.mp hq
    have hqLS := (mem_lineStarts s q).mp hqmem.1
    have hqsome := htimed q hqLS.1 hqLS.2
    obtain ⟨vq, hvq⟩ := Option.isSome_iff_exists.mp hqsome
    exact lineAt_any_nonws s q vq hvq
  -- the two filters coincide on the line starts
  have hcongr : ((lineStarts s).filter fun q => decide (p0 ≤ q) && decide (q < e1))
      = matchingPosStarts s f e := by
    unfold matchingPosStarts
    apply List.filter_congr
    intro q hqmem
    have hqLS := (mem_lineStarts s q).mp hqmem
    have hqsome := htimed q hqLS.1 hqLS.2
    obtain ⟨vq, hvq⟩ := Option.isSome_iff_exists.mp hqsome
    have hBool : (p0 ≤ q ∧ q < e1) ↔ (0 < q ∧ (f ≤ vq ∧ vq ≤ e)) := by
      constructor
      · rintro ⟨hq1, hq2⟩
        have hq0 : 0 < q := by omega
        have hqnl : s[q - 1]? = some '\n' := by
          rcases hqLS.2 with h | h
          · omega
          · exact h
        have hfq : f ≤ vq := by
          have hm := hmono p0 hp0len q hqLS.1 (Or.inr hp0nl) (Or.inr hqnl) hq1
          rw [hv0, hvq] at hm
          simp only [tsLeB, decide_eq_true_eq] at hm
          omega
        refine ⟨hq0, hfq, ?_⟩
        by_contra hcon
        push_neg at hcon
        rcases Nat.eq_or_lt_of_le hq1 with rfl | hq1'
        · rw [hvq] at hv0
          have := Option.some.inj hv0
          omega
        · have hqGood : GoodPivot s (e + 1) p0 q :=
            ⟨hq1', hqLS.1, hqnl, vq, hvq, by omega⟩
          have := spec1.2 q hqGood
          omega
      · rintro ⟨hq0, hfq, hqe⟩
        have hqnl : s[q - 1]? = some '\n' := by
          rcases hqLS.2 with h | h
          · omega
          · exact h
        have hqGoodf : GoodPivot s f 0 q := ⟨hq0, hqLS.1, hqnl, vq, hvq, hfq⟩
        have hq1 : p0 ≤ q := spec0.2 q hqGoodf
        refine ⟨hq1, ?_⟩
        rcases spec1.1 with h | h
        · obtain ⟨he1p0, he1len', he1nl, v1, hv1, hev1⟩ := h
          by_contra hcon
          push_neg at hcon
          have hm := hmono e1 he1len' q hqLS.1 (Or.inr he1nl) (Or.inr hqnl) hcon
          rw [hv1, hvq] at hm
          simp only [tsLeB, decide_eq_true_eq] at hm
          omega
        · omega
    have htsb : tsBetweenB s f e q = (decide (f ≤ vq) && decide (vq ≤ e)) := by
      unfold tsBetweenB
      rw [hvq]
    rw [htsb, Bool.eq_iff_iff]
    simp only [Bool.and_eq_true, decide_eq_true_eq]
    exact hBool
  have hlines_eq : (((lineStarts s).filter fun q =>
      decide (p0 ≤ q) && decide (q < e1)).map (lineAt s)) = matchingLines s f e := by
    rw [hcongr]
    rfl
  -- now compute the search result
  have hall : searchAllLines s (some f) (some e) [] = matchingLines s f e := by
    unfold searchAllLines
    simp only [← hp0def, if_neg hf0, if_neg he0, ← he1def]
    rw [if_neg (by omega : ¬ (e1 ≤ p0))]
    rw [if_neg (by simp : ¬ (([] : List Char) ≠ []))]
    simp only [hslice, List.filter_append]
    have hnilfilter : List.filter (fun line => (line.any fun ch => ¬ isWsCh ch)) [[]]
        = ([] : List (List Char)) := by
      simp
    rw [List.filter_eq_self.mpr hkeep, hnilfilter, List.append_nil, hlines_eq]
  unfold searchLogLinesByTimeRange
  rw [hall]
  constructor
  · show ((matchingLines s f e).drop 0).take limit = matchingLines s f e
    rw [List.drop_zero]
    exact List.take_of_length_le hlimit
  · rfl

/-- At `minOffset = fileSize` the search space is empty and the fallback
`fileSize` is returned at once. -/
theorem findOffsetByTime_at_size (s : List Char) (t : Int) (b : Bool) :
    findOffsetByTime s t b s.length = s.length := by
  unfold findOffsetByTime
  rw [show s.length - s.length + 1 = 0 + 1 by omega]
  rw [findLoopF_succ]
  rw [if_neg (by omega)]
  rfl

/-- The no-match case of the range search: when no line at a positive
offset has its timestamp in `[f, e]`, the result is empty — or, when some
line at a positive offset still has timestamp ≥ `f`, the single line at the
lower search's landing offset, which is out of range. -/
theorem searchLines_nomatch (s : List Char) (f e : Int) (limit : Nat)
    (hnice : NiceFile s) (hmono : MonoTs s)
    (hf0 : ¬ f = 0) (he0 : ¬ e = 0)
    (hmiss : ¬ ∃ p, PosStart s p ∧ tsBetweenB s f e p = true)
    (hpos : 0 < limit) :
    ((searchLogLinesByTimeRange s (some f) (some e) limit 0 []).lines = [] ∧
      (searchLogLinesByTimeRange s (some f) (some e) limit 0 []).total = 0 ∧
      findOffsetByTime s f true 0 = s.length) ∨
    ((searchLogLinesByTimeRange s (some f) (some e) limit 0 []).lines
        = [lineAt s (findOffsetByTime s f true 0)] ∧
      (searchLogLinesByTimeRange s (some f) (some e) limit 0 []).total = 1 ∧
      PosStart s (findOffsetByTime s f true 0) ∧
      tsGeB s f (findOffsetByTime s f true 0) = true ∧
      tsBetweenB s f e (findOffsetByTime s f true 0) = false) := by
  have htimed := hnice.2.2.2
  have hterm := hnice.2.1
  have spec0 := findOffsetByTime_spec s f true 0 (by omega) hnice hmono
  set p0 := findOffsetByTime s f true 0 with hp0def
  rcases spec0.1 with hGood | hsize
  case inr =>
    left
    have he1 : findOffsetByTime s (e + 1) false p0 = s.length := by
      rw [hsize]
      exact findOffsetByTime_at_size s (e + 1) false
    have hall : searchAllLines s (some f) (some e) [] = [] := by
      unfold searchAllLines
      simp only [← hp0def, if_neg hf0, if_neg he0]
      rw [he1]
      rw [if_pos (by omega : s.length ≤ p0)]
    unfold searchLogLinesByTimeRange
    rw [hall]
    exact ⟨by simp, rfl, hsize⟩
  case inl =>
  obtain ⟨hp0pos, hp0len, hp0nl, v0, hv0, hfv0⟩ := hGood
  have hv0e : e < v0 := by
    by_contra hcon
    push_neg at hcon
    refine hmiss ⟨p0, ⟨hp0pos, hp0len, hp0nl⟩, ?_⟩
    unfold tsBetweenB
    rw [hv0]
    simp [hfv0, hcon]
  have spec1 := findOffsetByTime_spec s (e + 1) false p0 (by omega) hnice hmono
  set e1 := findOffsetByTime s (e + 1) false p0 with he1def
  have he1gt : p0 < e1 := by
    rcases spec1.1 with h | h
    · exact h.1
    · exact h ▸ hp0len
  have he1len : e1 ≤ s.length := by
    rcases spec1.1 with h | h
    · exact le_of_lt h.2.1
    · exact le_of_eq h
  have hslice := splitNl_slice s hterm (e1 - p0) p0 e1 (le_refl _) (by omega) he1len
    (Or.inl ⟨hp0len, Or.inr hp0nl⟩)
    (by
      rcases spec1.1 with h | h
      · exact Or.inl ⟨h.2.1, Or.inr h.2.2.1⟩
      · exact Or.inr h)
  -- the only line start inside the slice is the landing offset itself
  have hfilter : ((lineStarts s).filter fun q =>
      decide (p0 ≤ q) && decide (q < e1)) = [p0] := by
    unfold lineStarts
    rw [List.filter_filter]
    have h := range_filter_cons s.length
      (fun q => (decide (p0 ≤ q) && decide (q < e1)) &&
        (decide (q = 0) || (s[q - 1]? == some '\n')))
      (fun _ => false) p0 hp0len
      (by
        simp only [Bool.and_eq_true, Bool.or_eq_true, decide_eq_true_eq,
          beq_iff_eq]
        exact ⟨⟨le_refl _, he1gt⟩, Or.inr hp0nl⟩)
      (by
        intro q hq
        simp only [Bool.and_eq_true, decide_eq_true_eq] at hq
        exact hq.1.1)
      (by
        intro q hq hqne
        exfalso
        simp only [Bool.and_eq_true, Bool.or_eq_true, decide_eq_true_eq,
          beq_iff_eq] at hq
        obtain ⟨⟨hq1, hq2⟩, hqLS⟩ := hq
        have hq0 : p0 < q := by omega
        have hqnl : s[q - 1]? = some '\n' := by
          rcases hqLS with h0 | hnl
          · omega
          · exact hnl
        have hqlen : q < s.length := by omega
        have hqsome := htimed q hqlen (Or.inr hqnl)
        obtain ⟨vq, hvq⟩ := Option.isSome_iff_exists.mp hqsome
        have hm := hmono p0 hp0len q hqlen (Or.inr hp0nl) (Or.inr hqnl)
          (le_of_lt hq0)
        rw [hv0, hvq] at hm
        simp only [tsLeB, decide_eq_true_eq] at hm
        have hqGood : GoodPivot s (e + 1) p0 q :=
          ⟨hq0, hqlen, hqnl, vq, hvq, by omega⟩
        have := spec1.2 q hqGood
        omega)
      (by intro q hq; simp at hq)
    rw [h]
    simp
  -- assemble the slice
  have hka : (lineAt s p0).any (fun ch => ¬ isWsCh ch) = true :=
    lineAt_any_nonws s p0 v0 hv0
  have hall : searchAllLines s (some f) (some e) [] = [lineAt s p0] := by
    unfold searchAllLines
    simp only [← hp0def, if_neg hf0, if_neg he0, ← he1def]
    rw [if_neg (by omega : ¬ (e1 ≤ p0))]
    rw [if_neg (by simp : ¬ (([] : List Char) ≠ []))]
    simp only [hslice, hfilter, List.map_cons, List.map_nil,
      List.filter_append]
    rw [List.filter_eq_self.mpr (by
      intro l hl
      rw [List.mem_singleton] at hl
      subst hl
      exact hka)]
    simp
  unfold searchLogLinesByTimeRange
  rw [hall]
  right
  refine ⟨?_, rfl, ⟨hp0pos, hp0len, hp0nl⟩, ?_, ?_⟩
  · show (([lineAt s p0]).drop 0).take limit = [lineAt s p0]
    rw [List.drop_zero]
    exact List.take_of_length_le (by simpa using hpos)
  · unfold tsGeB
    rw [hv0]
    simp [hfv0]
  · unfold tsBetweenB
    rw [hv0]
    have : ¬ (v0 ≤ e) := by omega
    simp [this]

/-! ## splitNl of an unterminated file -/

theorem splitNl_ne_nil (s : List Char) : splitNl s ≠ [] := by
  cases s with
  | nil => simp [splitNl]
  | cons a rest =>
    by_cases ha : a = '\n'
    · simp [splitNl, ha]
    · simp only [splitNl, if_neg ha]
      cases splitNl rest <;> simp

theorem splitNl_parts_no_nl (s : List Char) : ∀ l ∈ splitNl s, '\n' ∉ l := by
  induction s with
  | nil =>
    intro l hl
    simp [splitNl] at hl
    simp [hl]
  | cons a rest ih =>
    intro l hl
    by_cases ha : a = '\n'
    · simp only [splitNl, if_pos ha, List.mem_cons] at hl
      rcases hl with rfl | hl
      · simp
      · exact ih l hl
    · simp only [splitNl, if_neg ha] at hl
      cases hsp : splitNl rest with
      | nil => exact absurd hsp (splitNl_ne_nil rest)
      | cons h0 tl =>
        rw [hsp] at hl
        simp only [List.mem_cons] at hl
        rcases hl with rfl | hl
        · intro hmem
          simp only [List.mem_cons] at hmem
          rcases hmem with h | h
          · exact ha h.symm
          · exact ih h0 (by rw [hsp]; simp) h
        · exact ih l (by rw [hsp]; simp [hl])

theorem joinNlSep_splitNl (s : List Char) : joinNlSep (splitNl s) = s := by
  induction s with
  | nil => rfl
  | cons a rest ih =>
    by_cases ha : a = '\n'
    · subst ha
      simp only [splitNl, if_pos rfl]
      cases hsp : splitNl rest with
      | nil => exact absurd hsp (splitNl_ne_nil rest)
      | cons h0 tl =>
        rw [hsp] at ih
        show joinNlSep ([] :: h0 :: tl) = '\n' :: rest
        show [] ++ '\n' :: joinNlSep (h0 :: tl) = '\n' :: rest
        rw [ih]
        rfl
    · simp only [splitNl, if_neg ha]
      cases hsp : splitNl rest with
      | nil => exact absurd hsp (splitNl_ne_nil rest)
      | cons h0 tl =>
        rw [hsp] at ih
        cases tl with
        | nil =>
          show joinNlSep [a :: h0] = a :: rest
          show a :: h0 = a :: rest
          rw [show h0 = joinNlSep [h0] from rfl, ih]
        | cons t0 ts =>
          show joinNlSep ((a :: h0) :: t0 :: ts) = a :: rest
          show (a :: h0) ++ '\n' :: joinNlSep (t0 :: ts) = a :: rest
          rw [List.cons_append]
          congr 1

theorem takeWhile_all_no_nl (l : List Char) (h : ∀ ch ∈ l, ch ≠ '\n') :
    l.takeWhile (fun ch => !(ch == '\n')) = l := by
  induction l with
  | nil => rfl
  | cons a rest ih =>
    have ha : a ≠ '\n' := h a (by simp)
    rw [List.takeWhile_cons]
    simp only [ha, beq_iff_eq, if_true, Bool.not_eq_true']
    rw [if_pos (by simp [ha]), ih fun ch hch => h ch (by simp [hch])]

/-- An unterminated file splits into exactly its data-model lines, with no
empty trailing fragment. -/
theorem splitNl_drop_noterm (s : List Char)
    (hnt : ¬ s[s.length - 1]? = some '\n') :
    ∀ n b, s.length - b ≤ n → b < s.length →
      (b = 0 ∨ s[b - 1]? = some '\n') →
      splitNl (s.drop b) =
        ((lineStarts s).filter fun p => decide (b ≤ p)).map (lineAt s) := by
  intro n
  induction n with
  | zero => intro b h1 h2 _; omega
  | succ n ih =>
    intro b hn hb hbS
    cases hidx : idxFrom s '\n' b with
    | none =>
      have hnone := idxFrom_none s '\n' b hidx
      have hdropnn : ∀ ch ∈ s.drop b, ch ≠ '\n' := by
        intro ch hch
        obtain ⟨j, hj, hget⟩ := List.getElem_of_mem hch
        have hlen : (s.drop b).length = s.length - b := by simp
        have : (s.drop b)[j]? = some ch := by
          rw [List.getElem?_eq_getElem hj, hget]
        rw [List.getElem?_drop] at this
        intro hcon
        subst hcon
        exact hnone (b + j) (by omega) (by omega) this
      have hfilter : ((lineStarts s).filter fun p => decide (b ≤ p)) = [b] := by
        unfold lineStarts
        rw [List.filter_filter]
        have h := range_filter_cons s.length
          (fun p => decide (b ≤ p) && (decide (p = 0) || (s[p - 1]? == some '\n')))
          (fun _ => false) b hb
          (by
            simp only [Bool.and_eq_true, decide_eq_true_eq, Bool.or_eq_true,
              beq_iff_eq]
            refine ⟨le_refl b, ?_⟩
            rcases hbS with h0 | hnl
            · exact Or.inl h0
            · exact Or.inr hnl)
          (by
            intro p hp
            simp only [Bool.and_eq_true, decide_eq_true_eq] at hp
            exact hp.1)
          (by
            intro p hp hpb
            exfalso
            simp only [Bool.and_eq_true, decide_eq_true_eq, Bool.or_eq_true,
              beq_iff_eq] at hp
            rcases hp.2 with h0 | hnl
            · omega
            · have hplen : p - 1 < s.length := by
                have h2 := hnl
                rw [List.getElem?_eq_some] at h2
                exact h2.1
              exact hnone (p - 1) (by omega) hplen hnl)
          (by intro p hp; simp at hp)
        rw [h]
        simp
      rw [hfilter]
      simp only [List.map_cons, List.map_nil]
      rw [splitNl_no_nl (s.drop b) hdropnn]
      congr 1
      unfold lineAt
      rw [takeWhile_all_no_nl (s.drop b) hdropnn]
    | some g =>
      have hgs := idxFrom_some s '\n' b g hidx
      have hg1 : g + 1 < s.length := by
        rcases Nat.lt_or_ge (g + 1) s.length with h | h
        · exact h
        · exfalso
          have : g = s.length - 1 := by omega
          rw [this] at hgs
          exact hnt hgs.2.2.1
      have hdec := drop_decomp s b g hidx
      rw [hdec, ← lineAt_eq_take s b g hidx,
        splitNl_append_nl _ _ (lineAt_no_nl s b g hidx)]
      rw [ih (g + 1) (by omega) hg1 (Or.inr (by simpa using hgs.2.2.1))]
      have hfilter : ((lineStarts s).filter fun p => decide (b ≤ p))
          = b :: ((lineStarts s).filter fun p => decide (g + 1 ≤ p)) := by
        unfold lineStarts
        rw [List.filter_filter, List.filter_filter]
        apply range_filter_cons s.length _ _ b hb
        · simp only [Bool.and_eq_true, decide_eq_true_eq, Bool.or_eq_true,
            beq_iff_eq]
          refine ⟨le_refl b, ?_⟩
          rcases hbS with h0 | hnl
          · exact Or.inl h0
          · exact Or.inr hnl
        · intro p hp
          simp only [Bool.and_eq_true, decide_eq_true_eq] at hp
          exact hp.1
        · intro p hp hpb
          simp only [Bool.and_eq_true, decide_eq_true_eq, Bool.or_eq_true,
            beq_iff_eq] at hp ⊢
          obtain ⟨hbp, hLS⟩ := hp
          have hnl : s[p - 1]? = some '\n' := by
            rcases hLS with h0 | hnl
            · omega
            · exact hnl
          have : g ≤ p - 1 := by
            by_contra hcon
            exact (hgs.2.2.2 (p - 1) (by omega) (by omega)) hnl
          exact ⟨by omega, hLS⟩
        · intro p hp
          simp only [Bool.and_eq_true, decide_eq_true_eq] at hp ⊢
          exact ⟨⟨by omega, hp.2⟩, by omega⟩
      rw [hfilter, List.map_cons]

/-! ## Substring containment -/

theorem containsSub_infix_iff (l pat : List Char) :
    containsSub l pat = true ↔ pat <:+: l := by
  induction l with
  | nil =>
    rw [containsSub]
    simp [List.isPrefixOf_iff_prefix]
  | cons a rest ih =>
    rw [containsSub]
    simp only [Bool.or_eq_true, List.isPrefixOf_iff_prefix, ih]
    constructor
    · rintro (h | h)
      · exact h.isInfix
      · exact h.trans (List.suffix_cons a rest).isInfix
    · intro h
      rcases List.infix_cons_iff.mp h with h | h
      · exact Or.inl h
      · exact Or.inr h

/-! ## Shape of getLogFileTimeRange outcomes -/

theorem gltrWrite_fields (isLogFile : Bool) (s : List Char) (cache : Sidecar)
    (path : List Char) (ns ne : Bool) :
    ∃ w, (gltrWrite isLogFile s cache path ns ne).wrote = some w ∧
      (gltrWrite isLogFile s cache path ns ne).ops = [FsOp.writeSidecarFile path w] ∧
      w.start = (gltrWrite isLogFile s cache path ns ne).start ∧
      w.end' = (if isLogFile then none
        else (gltrWrite isLogFile s cache path ns ne).end') ∧
      (gltrWrite isLogFile s cache path ns ne).computedStart = ns ∧
      (gltrWrite isLogFile s cache path ns ne).computedEnd = ne :=
  ⟨_, rfl, rfl, rfl, rfl, rfl, rfl⟩

theorem gltrFinish_shape (isLogFile : Bool) (s : List Char) (cache : Sidecar)
    (path : List Char) (ns ne : Bool) :
    ShapeOK isLogFile path (gltrFinish isLogFile s cache path ns ne) := by
  rw [gltrFinish]
  split
  · exact Or.inl ⟨rfl, rfl⟩
  · obtain ⟨w, h1, h2, h3, h4, _, _⟩ := gltrWrite_fields isLogFile s cache path ns ne
    exact Or.inr ⟨w, h1, h2, h3, h4⟩

theorem gltrCompute_eq_finish (isLogFile : Bool) (s : List Char) (inode : Nat)
    (cache : Sidecar) (path : List Char) :
    ∃ c ns ne, gltrCompute isLogFile s inode cache path
      = gltrFinish isLogFile s c path ns ne :=
  ⟨_, _, _, rfl⟩

theorem getLogFileTimeRange_unfold (logFileName s : List Char) (inode : Nat)
    (cacheOnDisk : Option Sidecar) (path : List Char) :
    getLogFileTimeRange logFileName s inode cacheOnDisk path =
      (if ¬ isLogFileName logFileName = true ∧
          (cacheOnDisk.getD sidecarDefault).start.isSome = true ∧
          (cacheOnDisk.getD sidecarDefault).end'.isSome = true then
        ⟨(cacheOnDisk.getD sidecarDefault).start,
         (cacheOnDisk.getD sidecarDefault).end', none, [], false, false⟩
      else gltrCompute (isLogFileName logFileName) s inode
        (cacheOnDisk.getD sidecarDefault) path) := rfl

theorem gltr_shape (logFileName s : List Char) (inode : Nat)
    (cacheOnDisk : Option Sidecar) (path : List Char) :
    ShapeOK (isLogFileName logFileName) path
      (getLogFileTimeRange logFileName s inode cacheOnDisk path) := by
  rw [getLogFileTimeRange_unfold]
  split
  · exact Or.inl ⟨rfl, rfl⟩
  · obtain ⟨c, ns, ne, heq⟩ := gltrCompute_eq_finish (isLogFileName logFileName)
      s inode (cacheOnDisk.getD sidecarDefault) path
    rw [heq]
    exact gltrFinish_shape (isLogFileName logFileName) s c path ns ne

/-! ## Cache logic of getLogFileTimeRange -/

theorem gltrFinish_computed (isLogFile : Bool) (s : List Char) (cache : Sidecar)
    (path : List Char) (ns ne : Bool) :
    (gltrFinish isLogFile s cache path ns ne).computedStart = ns ∧
      (gltrFinish isLogFile s cache path ns ne).computedEnd = ne := by
  rw [gltrFinish]
  split
  · rename_i hc
    obtain ⟨hn, he⟩ := hc
    simp only [Bool.not_eq_true] at hn he
    subst hn; subst he
    exact ⟨rfl, rfl⟩
  · obtain ⟨w, _, _, _, _, h5, h6⟩ := gltrWrite_fields isLogFile s cache path ns ne
    exact ⟨h5, h6⟩

theorem gltrFinish_wrote (isLogFile : Bool) (s : List Char) (cache : Sidecar)
    (path : List Char) (ns ne : Bool) :
    (gltrFinish isLogFile s cache path ns ne).wrote.isSome = (ns || ne) := by
  rw [gltrFinish]
  split
  · rename_i hc
    obtain ⟨hn, he⟩ := hc
    simp only [Bool.not_eq_true] at hn he
    subst hn; subst he
    rfl
  · rename_i hc
    obtain ⟨w, h1, _, _, _, _, _⟩ := gltrWrite_fields isLogFile s cache path ns ne
    rw [h1]
    cases ns with
    | true => rfl
    | false =>
      cases ne with
      | true => rfl
      | false => exact absurd ⟨by simp, by simp⟩ hc

theorem gltrFinish_skip (isLogFile : Bool) (s : List Char) (cache : Sidecar)
    (path : List Char) :
    gltrFinish isLogFile s cache path false false
      = ⟨cache.start, cache.end', none, [], false, false⟩ := by
  rw [gltrFinish, if_pos ⟨by simp, by simp⟩]

theorem gltrCompute_unfold (isLogFile : Bool) (s : List Char) (inode : Nat)
    (cache : Sidecar) (path : List Char) :
    gltrCompute isLogFile s inode cache path =
      gltrFinish isLogFile s
        (if updateMetaB isLogFile
            (fileRotatedB isLogFile cache inode s.length (getFileHeaderSignature s))
            cache s.length then
          { (if fileRotatedB isLogFile cache inode s.length (getFileHeaderSignature s)
              then { cache with start := none } else cache) with
            size := s.length
            inode := inode
            headerSig := getFileHeaderSignature s }
         else (if fileRotatedB isLogFile cache inode s.length (getFileHeaderSignature s)
              then { cache with start := none } else cache))
        path
        (fileRotatedB isLogFile cache inode s.length (getFileHeaderSignature s)
          || cache.start.isNone)
        (updateMetaB isLogFile
            (fileRotatedB isLogFile cache inode s.length (getFileHeaderSignature s))
            cache s.length
          || cache.end'.isNone) := rfl

theorem getLogFileTimeRange_active (name s : List Char) (inode : Nat)
    (c : Sidecar) (path : List Char) (hiLF : isLogFileName name = true) :
    getLogFileTimeRange name s inode (some c) path
      = gltrCompute true s inode c path := by
  rw [getLogFileTimeRange_unfold, hiLF]
  rw [if_neg (by simp)]
  rfl

theorem fileRotatedB_true (c : Sidecar) (inode fileSize : Nat) (sig : List Char)
    (h : (c.inode ≠ 0 ∧ c.inode ≠ inode) ∨ (c.size ≠ 0 ∧ fileSize < c.size) ∨
      (c.headerSig ≠ [] ∧ sig ≠ c.headerSig)) :
    fileRotatedB true c inode fileSize sig = true := by
  unfold fileRotatedB
  simp only [Bool.true_and, Bool.or_eq_true, Bool.and_eq_true, decide_eq_true_eq,
    ne_eq]
  tauto

theorem fileRotatedB_false (c : Sidecar) (inode fileSize : Nat) (sig : List Char)
    (h1 : c.inode = inode) (h2 : c.size = fileSize) (h3 : c.headerSig = sig) :
    fileRotatedB true c inode fileSize sig = false := by
  subst h1 h2 h3
  simp [fileRotatedB]

theorem gltr_cache_logic (name s : List Char) (inode : Nat) (c : Sidecar)
    (path : List Char) (hiLF : isLogFileName name = true) :
    (((c.inode ≠ 0 ∧ c.inode ≠ inode) ∨ (c.size ≠ 0 ∧ s.length < c.size) ∨
        (c.headerSig ≠ [] ∧ getFileHeaderSignature s ≠ c.headerSig)) →
      (getLogFileTimeRange name s inode (some c) path).computedStart = true ∧
      (getLogFileTimeRange name s inode (some c) path).computedEnd = true ∧
      (getLogFileTimeRange name s inode (some c) path).wrote.isSome = true) ∧
    (c.inode = inode → c.size = s.length → c.headerSig = getFileHeaderSignature s →
      (getLogFileTimeRange name s inode (some c) path).computedStart
          = c.start.isNone ∧
      (getLogFileTimeRange name s inode (some c) path).computedEnd
          = c.end'.isNone ∧
      (c.start.isSome → c.end'.isSome →
        getLogFileTimeRange name s inode (some c) path
          = ⟨c.start, c.end', none, [], false, false⟩)) := by
  rw [getLogFileTimeRange_active name s inode c path hiLF, gltrCompute_unfold]
  constructor
  · intro htrig
    have hfR := fileRotatedB_true c inode s.length (getFileHeaderSignature s) htrig
    rw [hfR]
    have huM : updateMetaB true true c s.length = true := by
      unfold updateMetaB
      simp
    rw [huM]
    simp only [Bool.true_or]
    refine ⟨?_, ?_, ?_⟩
    · exact (gltrFinish_computed _ _ _ _ _ _).1
    · exact (gltrFinish_computed _ _ _ _ _ _).2
    · exact gltrFinish_wrote _ _ _ _ _ _
  · intro h1 h2 h3
    have hfR := fileRotatedB_false c inode s.length (getFileHeaderSignature s)
      h1 h2 h3
    rw [hfR]
    have huM : updateMetaB true false c s.length = false := by
      unfold updateMetaB
      simp [h2]
    rw [huM]
    simp only [Bool.false_eq_true, if_false, Bool.false_or]
    obtain ⟨hc1, hc2⟩ := gltrFinish_computed true s c path c.start.isNone c.end'.isNone
    refine ⟨hc1, hc2, ?_⟩
    intro hs he
    have hns : c.start.isNone = false := by
      rcases Option.isSome_iff_exists.mp hs with ⟨v, hv⟩
      rw [hv]
      rfl
    have hne : c.end'.isNone = false := by
      rcases Option.isSome_iff_exists.mp he with ⟨v, hv⟩
      rw [hv]
      rfl
    rw [hns, hne, gltrFinish_skip]

/-! ## Claim theorems -/

/-- C1 (corrected): on a well-formed file with strictly increasing
timestamps, `findOffsetByTime(t, lowerBound)` returns the byte offset of
the first line at a positive offset (directly after a newline) whose
timestamp is ≥ `t`, or the file size when there is none; the file's first
line is never a candidate. -/
theorem findOffsetByTime_lowerBound (s : List Char) (t : Int)
    (hnice : NiceFile s) (hmono : StrictMonoTs s) :
    (GoodPivot s t 0 (findOffsetByTime s t true 0) ∨
      findOffsetByTime s t true 0 = s.length) ∧
    ∀ p, GoodPivot s t 0 p → findOffsetByTime s t true 0 ≤ p :=
  findOffsetByTime_spec s t true 0 (Nat.zero_le _) hnice (monoTs_of_strict s hmono)

theorem findOffsetByTime_lowerBound_witness :
    NiceFile twoLines ∧ StrictMonoTs twoLines ∧
    ((GoodPivot twoLines 1735693205000 0
        (findOffsetByTime twoLines 1735693205000 true 0) ∨
      findOffsetByTime twoLines 1735693205000 true 0 = twoLines.length) ∧
     ∀ p, GoodPivot twoLines 1735693205000 0 p →
       findOffsetByTime twoLines 1735693205000 true 0 ≤ p) :=
  ⟨by decide, by decide,
   findOffsetByTime_lowerBound twoLines 1735693205000 (by decide) (by decide)⟩

/-- C1 counterexample: on `twoLines` the first line's timestamp is ≥ 0, so
the spec's lowerBound for `t = 0` is offset 0, but the search returns 23
(the start of the second line): the first line is never found. -/
theorem findOffsetByTime_first_line_missed :
    tsGeB twoLines 0 0 = true ∧ specFirstLineGe twoLines 0 = 0 ∧
    findOffsetByTime twoLines 0 true 0 = 23 := by decide

/-- C2 (corrected): on a well-formed monotone file with nonzero bounds,
when some line at a positive offset has its timestamp in `[f, e]` the range
search returns exactly those lines, in file order (the file's first line is
excluded even when in range); when no line matches, the spec's matching set
is empty but the search either returns nothing (lower search found no line
with timestamp ≥ `f`) or returns the single out-of-range line the lower
search landed on. -/
theorem searchLogLines_range_characterised (s : List Char) (f e : Int)
    (limit : Nat) (hnice : NiceFile s) (hmono : MonoTs s)
    (hf0 : ¬ f = 0) (he0 : ¬ e = 0)
    (hlimit : (matchingLines s f e).length ≤ limit) (hpos : 0 < limit) :
    ((∃ p, PosStart s p ∧ tsBetweenB s f e p = true) →
      (searchLogLinesByTimeRange s (some f) (some e) limit 0 []).lines
          = matchingLines s f e ∧
        (searchLogLinesByTimeRange s (some f) (some e) limit 0 []).total
          = (matchingLines s f e).length) ∧
    (¬ (∃ p, PosStart s p ∧ tsBetweenB s f e p = true) →
      matchingLines s f e = [] ∧
      (((searchLogLinesByTimeRange s (some f) (some e) limit 0 []).lines = [] ∧
        (searchLogLinesByTimeRange s (some f) (some e) limit 0 []).total = 0 ∧
        findOffsetByTime s f true 0 = s.length) ∨
       ((searchLogLinesByTimeRange s (some f) (some e) limit 0 []).lines
          = [lineAt s (findOffsetByTime s f true 0)] ∧
        (searchLogLinesByTimeRange s (some f) (some e) limit 0 []).total = 1 ∧
        PosStart s (findOffsetByTime s f true 0) ∧
        tsGeB s f (findOffsetByTime s f true 0) = true ∧
        tsBetweenB s f e (findOffsetByTime s f true 0) = false))) := by
  constructor
  · intro hhit
    exact searchLines_eq_matching s f e limit hnice hmono hf0 he0 hhit hlimit
  · intro hmiss
    refine ⟨?_, searchLines_nomatch s f e limit hnice hmono hf0 he0 hmiss hpos⟩
    unfold matchingLines matchingPosStarts
    rw [List.map_eq_nil, List.filter_eq_nil_iff]
    intro q hq
    simp only [Bool.and_eq_true, decide_eq_true_eq]
    rintro ⟨hq0, hqts⟩
    have hqLS := (mem_lineStarts s q).mp hq
    have hqnl : s[q - 1]? = some '\n' := by
      rcases hqLS.2 with h | h
      · omega
      · exact h
    exact hmiss ⟨q, ⟨hq0, hqLS.1, hqnl⟩, hqts⟩

theorem searchLogLines_range_characterised_witness :
    NiceFile twoLines ∧ MonoTs twoLines ∧
    ¬ (1735693205000 : Int) = 0 ∧ ¬ (1735693206000 : Int) = 0 ∧
    (matchingLines twoLines 1735693205000 1735693206000).length ≤ 100 ∧
    0 < 100 ∧
    (((∃ p, PosStart twoLines p ∧
        tsBetweenB twoLines 1735693205000 1735693206000 p = true) →
      (searchLogLinesByTimeRange twoLines (some 1735693205000)
          (some 1735693206000) 100 0 []).lines
        = matchingLines twoLines 1735693205000 1735693206000 ∧
      (searchLogLinesByTimeRange twoLines (some 1735693205000)
          (some 1735693206000) 100 0 []).total
        = (matchingLines twoLines 1735693205000 1735693206000).length) ∧
     (¬ (∃ p, PosStart twoLines p ∧
        tsBetweenB twoLines 1735693205000 1735693206000 p = true) →
      matchingLines twoLines 1735693205000 1735693206000 = [] ∧
      (((searchLogLinesByTimeRange twoLines (some 1735693205000)
          (some 1735693206000) 100 0 []).lines = [] ∧
        (searchLogLinesByTimeRange twoLines (some 1735693205000)
          (some 1735693206000) 100 0 []).total = 0 ∧
        findOffsetByTime twoLines 1735693205000 true 0 = twoLines.length) ∨
       ((searchLogLinesByTimeRange twoLines (some 1735693205000)
          (some 1735693206000) 100 0 []).lines
          = [lineAt twoLines (findOffsetByTime twoLines 1735693205000 true 0)] ∧
        (searchLogLinesByTimeRange twoLines (some 1735693205000)
          (some 1735693206000) 100 0 []).total = 1 ∧
        PosStart twoLines (findOffsetByTime twoLines 1735693205000 true 0) ∧
        tsGeB twoLines 1735693205000
          (findOffsetByTime twoLines 1735693205000 true 0) = true ∧
        tsBetweenB twoLines 1735693205000 1735693206000
          (findOffsetByTime twoLines 1735693205000 true 0) = false)))) :=
  ⟨by decide, by decide, by decide, by decide, by decide, by decide,
   searchLogLines_range_characterised twoLines 1735693205000 1735693206000 100
     (by decide) (by decide) (by decide) (by decide) (by decide) (by decide)⟩

/-- C2 counterexample, both violations of the original claim: with
`from = 1` (≤ both timestamps) the spec's matching set on `twoLines` holds
both lines but the search returns only the second (the first line never
matches a range query); and on the range `[1735693202000, 1735693203000]`,
strictly between the two timestamps, the spec's matching set is empty but
the search returns one out-of-range line with `total = 1`. -/
theorem searchLogLines_wrong_lines :
    (specMatchingLines twoLines 1 1735693206000).length = 2 ∧
    (searchLogLinesByTimeRange twoLines (some 1) (some 1735693206000)
      100 0 []).lines.length = 1 ∧
    specMatchingLines twoLines 1735693202000 1735693203000 = [] ∧
    (searchLogLinesByTimeRange twoLines (some 1735693202000)
      (some 1735693203000) 100 0 []).lines.length = 1 ∧
    (searchLogLinesByTimeRange twoLines (some 1735693202000)
      (some 1735693203000) 100 0 []).total = 1 := by decide

/-- C3 (corrected): on an active file, any of the three identity triggers
(inode mismatch with a nonzero cached inode, size decrease below a nonzero
cached size, header change against a nonempty cached signature) forces both
scans to run and the sidecar to be rewritten; with identity and size
unchanged, the scans run exactly for the ends missing from the cache — a
cache with `end = null` (the persisted state of every active file)
recomputes the end on every call, and only a fully populated cache is
returned without recomputation or writing. -/
theorem getLogFileTimeRange_cache_invalidation (name s : List Char)
    (inode : Nat) (c : Sidecar) (path : List Char)
    (hiLF : isLogFileName name = true) :
    (((c.inode ≠ 0 ∧ c.inode ≠ inode) ∨ (c.size ≠ 0 ∧ s.length < c.size) ∨
        (c.headerSig ≠ [] ∧ getFileHeaderSignature s ≠ c.headerSig)) →
      (getLogFileTimeRange name s inode (some c) path).computedStart = true ∧
      (getLogFileTimeRange name s inode (some c) path).computedEnd = true ∧
      (getLogFileTimeRange name s inode (some c) path).wrote.isSome = true) ∧
    (c.inode = inode → c.size = s.length →
      c.headerSig = getFileHeaderSignature s →
      (getLogFileTimeRange name s inode (some c) path).computedStart
          = c.start.isNone ∧
      (getLogFileTimeRange name s inode (some c) path).computedEnd
          = c.end'.isNone ∧
      (c.start.isSome = true → c.end'.isSome = true →
        getLogFileTimeRange name s inode (some c) path
          = ⟨c.start, c.end', none, [], false, false⟩)) :=
  gltr_cache_logic name s inode c path hiLF

theorem getLogFileTimeRange_cache_invalidation_witness :
    isLogFileName appLogName = true ∧
    ((((sampleSidecar.inode ≠ 0 ∧ sampleSidecar.inode ≠ 5) ∨
        (sampleSidecar.size ≠ 0 ∧ twoLines.length < sampleSidecar.size) ∨
        (sampleSidecar.headerSig ≠ [] ∧
          getFileHeaderSignature twoLines ≠ sampleSidecar.headerSig)) →
      (getLogFileTimeRange appLogName twoLines 5 (some sampleSidecar)
        cachePathName).computedStart = true ∧
      (getLogFileTimeRange appLogName twoLines 5 (some sampleSidecar)
        cachePathName).computedEnd = true ∧
      (getLogFileTimeRange appLogName twoLines 5 (some sampleSidecar)
        cachePathName).wrote.isSome = true) ∧
     (sampleSidecar.inode = 5 → sampleSidecar.size = twoLines.length →
      sampleSidecar.headerSig = getFileHeaderSignature twoLines →
      (getLogFileTimeRange appLogName twoLines 5 (some sampleSidecar)
          cachePathName).computedStart = sampleSidecar.start.isNone ∧
      (getLogFileTimeRange appLogName twoLines 5 (some sampleSidecar)
          cachePathName).computedEnd = sampleSidecar.end'.isNone ∧
      (sampleSidecar.start.isSome = true → sampleSidecar.end'.isSome = true →
        getLogFileTimeRange appLogName twoLines 5 (some sampleSidecar)
            cachePathName
          = ⟨sampleSidecar.start, sampleSidecar.end', none, [], false, false⟩))) :=
  ⟨by decide,
   getLogFileTimeRange_cache_invalidation appLogName twoLines 5 sampleSidecar
     cachePathName (by decide)⟩

/-- C3 counterexample: `sampleSidecar` matches `twoLines` in inode, size
and header signature, yet the call recomputes the end and rewrites the
sidecar — active files never return from cache alone, because their
persisted `end` is always `null`. -/
theorem getLogFileTimeRange_recompute_despite_unchanged :
    sampleSidecar.inode = 5 ∧ sampleSidecar.size = twoLines.length ∧
    sampleSidecar.headerSig = getFileHeaderSignature twoLines ∧
    (getLogFileTimeRange appLogName twoLines 5 (some sampleSidecar)
      cachePathName).computedEnd = true ∧
    (getLogFileTimeRange appLogName twoLines 5 (some sampleSidecar)
      cachePathName).wrote ≠ none := by decide

/-- C4 (corrected): for a file without a trailing newline,
`getLogLines(-N, N)` returns the last `min(N, lineCount)` lines in order;
on a newline-terminated file the `split('\n')` phantom empty final entry
shifts the window (see the counterexample). -/
theorem getLogLines_negative_index (s : List Char) (N : Nat)
    (hN : 0 < N) (hs : 0 < s.length)
    (hnt : ¬ s[s.length - 1]? = some '\n') :
    getLogLines s (-(N : Int)) (N : Int)
      = (fileLines s).drop ((fileLines s).length - N) := by
  have hsplit : splitNl s = fileLines s := by
    have h := splitNl_drop_noterm s hnt s.length 0 (by omega) hs (Or.inl rfl)
    rw [List.drop_zero] at h
    rw [h]
    unfold fileLines
    congr 1
    apply List.filter_eq_self.mpr
    intro p _
    simp
  simp only [getLogLines]
  rw [hsplit]
  rw [if_pos (show -(N : Int) < 0 by omega)]
  rw [if_neg (show ¬ (N : Int) ≤ 0 by omega)]
  have h1 : (min (max 0 (((fileLines s).length : Int) + -(N : Int)))
      ((fileLines s).length : Int)).toNat = (fileLines s).length - N := by
    omega
  rw [h1]
  apply List.take_of_length_le
  rw [List.length_drop]
  omega

theorem getLogLines_negative_index_witness :
    0 < 2 ∧ 0 < s1FileNoNl.length ∧
    ¬ s1FileNoNl[s1FileNoNl.length - 1]? = some '\n' ∧
    getLogLines s1FileNoNl (-((2 : Nat) : Int)) ((2 : Nat) : Int)
      = (fileLines s1FileNoNl).drop ((fileLines s1FileNoNl).length - 2) :=
  ⟨by decide, by decide, by decide,
   getLogLines_negative_index s1FileNoNl 2 (by decide) (by decide) (by decide)⟩

/-- C4 counterexample: on the newline-terminated S1 file the spec expects
the continuation line followed by the final bar line, but `split('\n')`
ends with a phantom empty entry, so the call returns the bar line and an
empty line instead. -/
theorem getLogLines_trailing_empty_line :
    getLogLines s1File (-2) 2 = ["11/21/2025, 01:00:00 AM bar".toList, []] ∧
    (fileLines s1File).drop ((fileLines s1File).length - 2)
      = ["11/21/2025, 00:30:00 continuation".toList,
         "11/21/2025, 01:00:00 AM bar".toList] := by decide

/-- C5 (corrected): the sidecar persist of `getLogFileTimeRange` is never
the spec's write-temp-then-rename: every execution's filesystem trace is
empty or a single direct write to the cache path, and no trace satisfies
the atomic-persist shape. -/
theorem sidecarPersist_single_direct_write (name s : List Char) (inode : Nat)
    (cacheOnDisk : Option Sidecar) (path : List Char) :
    (∀ op ∈ (getLogFileTimeRange name s inode cacheOnDisk path).ops,
      ∃ w, op = FsOp.writeSidecarFile path w) ∧
    ¬ AtomicPersist (getLogFileTimeRange name s inode cacheOnDisk path).ops
      path := by
  rcases gltr_shape name s inode cacheOnDisk path with ⟨_, h2⟩ | ⟨w, _, h2, _, _⟩
  · rw [h2]
    exact ⟨by simp, fun ⟨tmp, data, hne, heq⟩ => by simp at heq⟩
  · rw [h2]
    refine ⟨?_, fun ⟨tmp, data, hne, heq⟩ => by simp at heq⟩
    intro op hop
    rw [List.mem_singleton] at hop
    exact ⟨w, hop⟩

/-- C5 counterexample: a concrete call that does persist the sidecar, with
a trace that is one plain write — not a temp write followed by a rename. -/
theorem sidecarPersist_not_atomic_cex :
    (getLogFileTimeRange appLogName twoLines 5 none cachePathName).wrote
      ≠ none ∧
    ¬ AtomicPersist
      (getLogFileTimeRange appLogName twoLines 5 none cachePathName).ops
      cachePathName := by
  constructor
  · decide
  · rintro ⟨tmp, data, hne, heq⟩
    have h1 : (getLogFileTimeRange appLogName twoLines 5 none
        cachePathName).ops.length = 1 := by decide
    rw [heq] at h1
    simp at h1

/-- C6 (confirmed): every sidecar record written for an active (`.log`)
file has `end = null`, and every record written for a rotated file carries
the returned (computed) start and end. -/
theorem sidecar_end_null_for_active (name s : List Char) (inode : Nat)
    (cacheOnDisk : Option Sidecar) (path : List Char) (w : Sidecar)
    (hw : (getLogFileTimeRange name s inode cacheOnDisk path).wrote = some w) :
    (isLogFileName name = true → w.end' = none) ∧
    (isLogFileName name = false →
      w.start = (getLogFileTimeRange name s inode cacheOnDisk path).start ∧
      w.end' = (getLogFileTimeRange name s inode cacheOnDisk path).end') := by
  rcases gltr_shape name s inode cacheOnDisk path with ⟨h1, _⟩ | ⟨w2, h1, _, h3, h4⟩
  · rw [h1] at hw
    exact absurd hw (by simp)
  · rw [h1] at hw
    injection hw with hww
    subst hww
    constructor
    · intro hL
      rw [h4, if_pos hL]
    · intro hL
      refine ⟨h3, ?_⟩
      rw [h4, if_neg (by simp [hL])]

theorem sidecar_end_null_for_active_witness :
    ((getLogFileTimeRange appLogName twoLines 5 none cachePathName).wrote
      = some ((getLogFileTimeRange appLogName twoLines 5 none
          cachePathName).wrote.getD sidecarDefault)) ∧
    ((isLogFileName appLogName = true →
        ((getLogFileTimeRange appLogName twoLines 5 none
          cachePathName).wrote.getD sidecarDefault).end' = none) ∧
     (isLogFileName appLogName = false →
        ((getLogFileTimeRange appLogName twoLines 5 none
            cachePathName).wrote.getD sidecarDefault).start
          = (getLogFileTimeRange appLogName twoLines 5 none
              cachePathName).start ∧
        ((getLogFileTimeRange appLogName twoLines 5 none
            cachePathName).wrote.getD sidecarDefault).end'
          = (getLogFileTimeRange appLogName twoLines 5 none
              cachePathName).end')) :=
  ⟨by decide,
   sidecar_end_null_for_active appLogName twoLines 5 none cachePathName _
     (by decide)⟩

/-- C7 (confirmed): pagination law — the page of size `O` at offset 0
followed by the page of size `L` at offset `O` is the page of size `L + O`
at offset 0, over the same range, filter and content. -/
theorem searchLogLines_pagination (s : List Char) (startTs endTs : Option Int)
    (search : List Char) (L O : Nat) :
    (searchLogLinesByTimeRange s startTs endTs O 0 search).lines ++
      (searchLogLinesByTimeRange s startTs endTs L O search).lines
      = (searchLogLinesByTimeRange s startTs endTs (L + O) 0 search).lines := by
  simp only [searchLogLinesByTimeRange]
  rw [Nat.add_comm L O, List.take_add]
  simp

/-- C8 (corrected): `powerAction` accepts exactly the uppercased actions in
the frozen `PowerAction` set `{START, STOP, RESTART}` and answers the fixed
invalid-action result otherwise: `down`, claimed valid by the spec, is
rejected. -/
theorem powerAction_valid_set (action : List Char) :
    (powerActionValidation (toUpperAscii action) = none ↔
      toUpperAscii action ∈ PowerActionValues) ∧
    (powerActionValidation (toUpperAscii action) = none ∨
      powerActionValidation (toUpperAscii action)
        = some ⟨false, "Invalid action type".toList⟩) := by
  unfold powerActionValidation
  by_cases h : toUpperAscii action ∈ PowerActionValues
  · rw [if_pos h]
    exact ⟨⟨fun _ => h, fun _ => rfl⟩, Or.inl rfl⟩
  · rw [if_neg h]
    exact ⟨⟨fun hc => absurd hc (by simp), fun hm => absurd hm h⟩, Or.inr rfl⟩

/-- C8 counterexample: the spec's valid set contains `down`, but the
uppercased `down` is rejected with the invalid-action result while the
three `PowerAction` members are accepted. -/
theorem powerAction_down_rejected :
    claimedPowerValid "down".toList = true ∧
    powerActionValidation (toUpperAscii "down".toList)
      = some ⟨false, "Invalid action type".toList⟩ ∧
    powerActionValidation (toUpperAscii "start".toList) = none ∧
    powerActionValidation (toUpperAscii "stop".toList) = none ∧
    powerActionValidation (toUpperAscii "restart".toList) = none := by decide

/-- C9 (confirmed): a line appended after subscription is delivered to a
subscriber exactly when its filter is empty or an infix of the line,
delivered lines keep append order (the delivery is a sublist of the
appended lines), and the S5 scenario delivers exactly `err:2`, `err:4`. -/
theorem monitor_filter_delivery (search : List Char)
    (appended : List (List Char)) :
    (monitorDeliveredLines search appended).Sublist appended ∧
    (∀ l, l ∈ monitorDeliveredLines search appended ↔
      l ∈ appended ∧ (search = [] ∨ search <:+: l)) ∧
    monitorDeliveredLines "err".toList
        ["info:1".toList, "err:2".toList, "warn:3".toList, "err:4".toList]
      = ["err:2".toList, "err:4".toList] := by
  refine ⟨List.filter_sublist _, ?_, by decide⟩
  intro l
  unfold monitorDeliveredLines
  rw [List.mem_filter]
  constructor
  · rintro ⟨h1, h2⟩
    refine ⟨h1, ?_⟩
    simp only [Bool.or_eq_true, List.isEmpty_iff, containsSub_infix_iff] at h2
    exact h2
  · rintro ⟨h1, h2⟩
    refine ⟨h1, ?_⟩
    simp only [Bool.or_eq_true, List.isEmpty_iff, containsSub_infix_iff]
    exact h2

/-- C10 (confirmed): the binary-search loop terminates on every content,
target and `minOffset`: the iteration budget `fileSize - minOffset + 1`
never runs out, and `findOffsetByTime` returns the loop's result. -/
theorem findOffsetByTime_terminates (s : List Char) (t : Int) (b : Bool)
    (m : Nat) :
    ∃ r, findLoopF s t (s.length - m + 1) m s.length s.length = some r ∧
      findOffsetByTime s t b m = r := by
  obtain ⟨r, hr⟩ := findLoopF_terminates s t (s.length - m + 1) m s.length
    s.length (by omega)
  refine ⟨r, hr, ?_⟩
  unfold findOffsetByTime
  rw [hr]
  rfl

end DCM
